import Mathlib

/-!
Verification development for the `romkatv/action-chain` repository.

The core of the repository is the `ActionChain` class of
`src/unnamed/part_002` (the revision with the `Mem` allocation cache and
`kAllocSize = 64`): a wait-free queue of actions built from `Work` nodes
whose atomic `next_` field takes one of three values (null, a successor
pointer, or the distinguished `Sealed()` marker).

This file contains:

* a small-step operational model of the protocol (`ActionChain.St`,
  `ActionChain.stepF`): producers run `ActionChain::Run`, which performs
  `Work::New`, `tail_.exchange`, and `Work::ContinueWith`; executors run
  the `Work::RunAll` loop (invoke the action, then exchange `Sealed()`
  into `next_`).  Ghost fields record the order in which nodes won
  `tail_.exchange` (`tailLog`), the order in which actions were invoked
  (`invokedLog`), and every call of `Work::Destroy` together with the
  value of the destroyed node's `next_` field at the moment of the call
  (`destroyLog`);
* an inductive invariant of the protocol and its preservation proof,
  from which the ordering, serialization, monotonicity and
  destroy-exactly-once properties follow;
* functional models of the `Mem` slab cache of `ActionChain::Run`
  (`runMem`) and of the sized-deallocation scheme of the
  `src/src/action_chain.h` revision (`allocSizeV1` and friends).
-/

namespace ActionChain

/-- Value of a node's atomic `next_` field: `nullptr`, the `Sealed()`
marker (`reinterpret_cast<Work*>(alignof(Work))`), or a pointer to a
successor node (identified by the node id assigned at `Work::New`). -/
inductive NextV where
  | null
  | sealed
  | node (id : Nat)
deriving DecidableEq

/-- Control state of one thread.  A producer executing `ActionChain::Run`
moves `idle → created n → gotPrev n x → (idle | executor states)`; the
executor states model the `Work::RunAll` loop at node `w`: about to call
`invoke_` (`execReady`), inside the action (`execInvoking`), and about to
exchange `Sealed()` into `next_` (`execSealing`). -/
inductive TState where
  | idle
  | created (n : Nat)
  | gotPrev (n x : Nat)
  | execReady (w : Nat)
  | execInvoking (w : Nat)
  | execSealing (w : Nat)
deriving DecidableEq

/-- Which code path called `Work::Destroy`: the executor loop in
`RunAll` (after its seal exchange returned a successor), a producer in
`ContinueWith` (after its exchange returned `Sealed()`), or the
`~ActionChain` destructor. -/
inductive Who where
  | execW
  | prodW
  | finW
deriving DecidableEq

/-- Ghost record of one `Work::Destroy` call: the destroyed node, the
value the caller observed in its exchange (or load) of `next_`, the value
of the node's `next_` field at the moment `Destroy` ran (what the
`assert(next_.load(...) == Sealed())` at the top of `Destroy` reads), and
the calling code path. -/
structure DEntry where
  nd : Nat
  obs : NextV
  fld : NextV
  who : Who
deriving DecidableEq

/-- Global state of one `ActionChain` and the threads using it.  Nodes
are identified by allocation order (`Work::New` order): node ids
`0, 1, ..., numNodes - 1`, node `0` being the sentinel allocated in the
`tail_` member initializer.  `next`, `tail` and `thr` model the memory;
`linked` (the producer exchange on this node's `next_` happened),
`sealedF` (the executor seal exchange happened), `destroyed`, `succG`
(successor installed by `tail_.exchange`), and the three logs are ghost
state recording the history. -/
structure St where
  numNodes : Nat
  next : Nat → NextV
  linked : Nat → Bool
  sealedF : Nat → Bool
  destroyed : Nat → Bool
  succG : Nat → Option Nat
  tail : Nat
  thr : Nat → TState
  nthr : Nat
  tailLog : List Nat
  invokedLog : List Nat
  destroyLog : List DEntry
  alive : Bool

/-- Atomic actions of the protocol, each corresponding to one atomic
step of the code in `src/unnamed/part_002`. -/
inductive Act where
  | start (t : Nat)
  | exchTail (t : Nat)
  | exchNext (t : Nat)
  | beginInvoke (t : Nat)
  | endInvoke (t : Nat)
  | seal (t : Nat)
  | dtor

/-- Guard of each action.  `exchNext` observing a successor pointer and
`seal` observing `Sealed()` are excluded: the code asserts both cases
impossible (`assert(w == Sealed())` in `ContinueWith`,
`assert(next != Sealed())` in `RunAll`), and the invariant below proves
the guards never cut a reachable behavior (see `contWith_two_outcomes`
and `nextField_transitions`). -/
def enabled (a : Act) (s : St) : Bool :=
  s.alive && match a with
  | .start t => decide (t < s.nthr) && decide (s.thr t = .idle)
  | .exchTail t => match s.thr t with
      | .created _ => true
      | _ => false
  | .exchNext t => match s.thr t with
      | .gotPrev _ x => match s.next x with
        | .node _ => false
        | _ => true
      | _ => false
  | .beginInvoke t => match s.thr t with
      | .execReady _ => true
      | _ => false
  | .endInvoke t => match s.thr t with
      | .execInvoking _ => true
      | _ => false
  | .seal t => match s.thr t with
      | .execSealing w => match s.next w with
        | .sealed => false
        | _ => true
      | _ => false
  | .dtor => (List.range s.nthr).all fun t => decide (s.thr t = .idle)

/-- Effect of each action (identity when the action is not enabled).

`start t`: `Work::New` inside `Run` constructs a fresh node with
`next_{nullptr}`.
`exchTail t`: `tail_.exchange(work, acq_rel)` in `Run`; the ghost `succG`
records that the previous tail's successor is now determined.
`exchNext t`: the exchange in `ContinueWith`: `next_.exchange(next)` on
the predecessor `x`; old value `nullptr` means return `nullptr` to `Run`;
old value `Sealed()` means `Destroy()` the predecessor (note the field
now holds the successor pointer just installed) and `RunAll(next)`.
`beginInvoke`/`endInvoke t`: the `w->invoke_(w)` call in `RunAll`, split
in two so that the duration of an action is visible in the model.
`seal t`: `w->next_.exchange(Sealed(), acq_rel)` in `RunAll`; a non-null
old value is a successor: `Destroy()` the node (field now `Sealed()`)
and continue the loop there; null means leave the loop.
`dtor`: `~ActionChain`: `tail_.load()->Destroy()` plus the slab free;
requires quiescence (caller contract). -/
def stepF (a : Act) (s : St) : St :=
  if s.alive = true then
    match a with
    | .start t =>
      if t < s.nthr ∧ s.thr t = .idle then
        { s with numNodes := s.numNodes + 1,
                 next := Function.update s.next s.numNodes .null,
                 thr := Function.update s.thr t (.created s.numNodes) }
      else s
    | .exchTail t =>
      match s.thr t with
      | .created n =>
        { s with tail := n,
                 tailLog := n :: s.tailLog,
                 succG := Function.update s.succG s.tail (some n),
                 thr := Function.update s.thr t (.gotPrev n s.tail) }
      | _ => s
    | .exchNext t =>
      match s.thr t with
      | .gotPrev n x =>
        match s.next x with
        | .null =>
          { s with next := Function.update s.next x (.node n),
                   linked := Function.update s.linked x true,
                   thr := Function.update s.thr t .idle }
        | .sealed =>
          { s with next := Function.update s.next x (.node n),
                   linked := Function.update s.linked x true,
                   destroyed := Function.update s.destroyed x true,
                   destroyLog := ⟨x, .sealed, .node n, .prodW⟩ :: s.destroyLog,
                   thr := Function.update s.thr t (.execReady n) }
        | .node _ => s
      | _ => s
    | .beginInvoke t =>
      match s.thr t with
      | .execReady w =>
        { s with invokedLog := w :: s.invokedLog,
                 thr := Function.update s.thr t (.execInvoking w) }
      | _ => s
    | .endInvoke t =>
      match s.thr t with
      | .execInvoking w =>
        { s with thr := Function.update s.thr t (.execSealing w) }
      | _ => s
    | .seal t =>
      match s.thr t with
      | .execSealing w =>
        match s.next w with
        | .null =>
          { s with next := Function.update s.next w .sealed,
                   sealedF := Function.update s.sealedF w true,
                   thr := Function.update s.thr t .idle }
        | .node y =>
          { s with next := Function.update s.next w .sealed,
                   sealedF := Function.update s.sealedF w true,
                   destroyed := Function.update s.destroyed w true,
                   destroyLog := ⟨w, .node y, .sealed, .execW⟩ :: s.destroyLog,
                   thr := Function.update s.thr t (.execReady y) }
        | .sealed => s
      | _ => s
    | .dtor =>
      if (List.range s.nthr).all (fun t => decide (s.thr t = .idle)) then
        { s with destroyed := Function.update s.destroyed s.tail true,
                 destroyLog := ⟨s.tail, s.next s.tail, s.next s.tail, .finW⟩ :: s.destroyLog,
                 alive := false }
      else s
  else s

/-- State at the start of the `ActionChain` constructor body: the
`tail_` member initializer `Work::New(::operator new(kAllocSize), [] {})`
has allocated the sentinel node 0 with `next_ = nullptr`, and the
constructing thread (thread 0) is about to execute
`Work::RunAll(tail_.load())`.  `T + 1` threads exist in total. -/
def preInit (T : Nat) : St :=
  { numNodes := 1
    next := fun _ => .null
    linked := fun _ => false
    sealedF := fun _ => false
    destroyed := fun _ => false
    succG := fun _ => none
    tail := 0
    thr := Function.update (fun _ => TState.idle) 0 (.execReady 0)
    nthr := T + 1
    tailLog := [0]
    invokedLog := []
    destroyLog := []
    alive := true }

/-- State after the `ActionChain` constructor returns: the constructor
body `Work::RunAll(tail_.load())` invokes the sentinel's no-op action and
then exchanges `Sealed()` into its `next_` (getting `nullptr` back, so
the loop exits). -/
def ctorRun (T : Nat) : St :=
  stepF (.seal 0) (stepF (.endInvoke 0) (stepF (.beginInvoke 0) (preInit T)))

/-- Initial state of the protocol proper: a freshly constructed chain. -/
def initSt (T : Nat) : St := ctorRun T

/-- One interleaved step of the protocol. -/
def Step (s s' : St) : Prop := ∃ a, enabled a s = true ∧ stepF a s = s'

/-- States reachable from a freshly constructed chain shared by `T + 1`
threads. -/
def Reachable (T : Nat) (s : St) : Prop :=
  Relation.ReflTransGen Step (initSt T) s

/-- Chronological order in which nodes won `tail_.exchange` (the sentinel
first, placed by the constructor). -/
def chain (s : St) : List Nat := s.tailLog.reverse

/-- Chronological order in which actions were invoked (`invoke_` calls
begun). -/
def ilog (s : St) : List Nat := s.invokedLog.reverse

end ActionChain

namespace ActionChain

/-! ## The inductive invariant of the protocol -/

/-- The ghost successor map traces out a chain: consecutive list elements
are linked by `succ`, and the final element (the current tail) has no
successor installed yet. -/
inductive PathOK (succ : Nat → Option Nat) : List Nat → Prop where
  | single (x : Nat) (h : succ x = none) : PathOK succ [x]
  | cons (x y : Nat) (r : List Nat) (h : succ x = some y)
      (hp : PathOK succ (y :: r)) : PathOK succ (x :: y :: r)

theorem pathOK_ne_nil {succ : Nat → Option Nat} {l : List Nat}
    (h : PathOK succ l) : l ≠ [] := by
  cases h <;> simp

theorem pathOK_last_none {succ : Nat → Option Nat} {l : List Nat} {z : Nat}
    (h : PathOK succ l) (hz : l.getLast? = some z) : succ z = none := by
  induction h with
  | single x hx => simp at hz; simpa [hz] using hx
  | cons x y r hxy hp ih => exact ih (by simpa using hz)

theorem pathOK_none_last {succ : Nat → Option Nat} {l : List Nat} {x : Nat}
    (h : PathOK succ l) (hx : x ∈ l) (hn : succ x = none) :
    l.getLast? = some x := by
  induction h with
  | single a ha => simp at hx; simp [hx]
  | cons a y r hay hp ih =>
    rcases List.mem_cons.mp hx with rfl | hx2
    · rw [hay] at hn; cases hn
    · simpa using ih hx2

theorem mem_of_getLast?_eq {l : List Nat} {z : Nat}
    (h : l.getLast? = some z) : z ∈ l := by
  induction l with
  | nil => simp at h
  | cons a r ih =>
    cases r with
    | nil => simp_all
    | cons b r2 =>
      rw [List.getLast?_cons_cons] at h
      exact List.mem_cons_of_mem _ (ih h)

theorem getLast?_reverse_eq_head? (l : List Nat) :
    l.reverse.getLast? = l.head? := by
  cases l with
  | nil => rfl
  | cons a r => simp [List.getLast?_append, List.getLast?_concat]

theorem pathOK_mem_succ {succ : Nat → Option Nat} {l : List Nat} {x y : Nat}
    (h : PathOK succ l) (hx : x ∈ l) (hy : succ x = some y) :
    ∃ l1 l2, l = l1 ++ x :: y :: l2 := by
  induction h with
  | single a ha =>
    simp at hx
    subst hx
    rw [ha] at hy; cases hy
  | cons a b r hab hp ih =>
    rcases List.mem_cons.mp hx with rfl | hx2
    · have hby : b = y := by
        rw [hab] at hy
        exact Option.some.inj hy
      subst hby
      exact ⟨[], r, rfl⟩
    · obtain ⟨l1, l2, h12⟩ := ih hx2
      exact ⟨a :: l1, l2, by simp [h12]⟩

theorem pathOK_snoc {succ : Nat → Option Nat} {l : List Nat} {z n : Nat}
    (h : PathOK succ l) (hz : l.getLast? = some z) (hnl : n ∉ l)
    (hn : succ n = none) :
    PathOK (Function.update succ z (some n)) (l ++ [n]) := by
  induction h with
  | single x hx =>
    simp only [List.getLast?_singleton, Option.some.injEq] at hz
    subst hz
    have hxn : n ≠ x := by simpa using hnl
    exact PathOK.cons x n [] (by simp)
      (PathOK.single n (by simp [Function.update_noteq hxn, hn]))
  | cons x y r hxy hp ih =>
    have hz2 : (y :: r).getLast? = some z := by
      rw [List.getLast?_cons_cons] at hz
      exact hz
    have hxz : x ≠ z := by
      intro hxe
      subst hxe
      rw [pathOK_last_none hp hz2] at hxy; cases hxy
    have hn2 : n ∉ y :: r := fun hm => hnl (List.mem_cons_of_mem _ hm)
    exact PathOK.cons x y (r ++ [n])
      (by rw [Function.update_noteq hxz]; exact hxy) (ih hz2 hn2)

/-- Splitting equal lists around a common element that occurs in neither
prefix part. -/
theorem append_cons_eq_of_not_mem {x : Nat} :
    ∀ {a c : List Nat} {b d : List Nat}, a ++ x :: b = c ++ x :: d →
      x ∉ a → x ∉ c → a = c ∧ b = d := by
  intro a
  induction a with
  | nil =>
    intro c b d h hxa hxc
    cases c with
    | nil => simpa using h
    | cons e c' =>
      simp only [List.nil_append, List.cons_append, List.cons.injEq] at h
      exact absurd (h.1 ▸ List.mem_cons_self e c') (by
        intro hm
        exact hxc (h.1 ▸ List.mem_cons_self x _))
  | cons a0 a' ih =>
    intro c b d h hxa hxc
    cases c with
    | nil =>
      simp only [List.nil_append, List.cons_append, List.cons.injEq] at h
      exact absurd (h.1 ▸ List.mem_cons_self a0 a') (by
        intro _
        exact hxa (h.1 ▸ List.mem_cons_self a0 a'))
    | cons c0 c' =>
      simp only [List.cons_append, List.cons.injEq] at h
      have hx' : x ∉ a' := fun hm => hxa (List.mem_cons_of_mem _ hm)
      have hxc' : x ∉ c' := fun hm => hxc (List.mem_cons_of_mem _ hm)
      obtain ⟨h1, h2⟩ := ih h.2 hx' hxc'
      exact ⟨by rw [h.1, h1], h2⟩

/-- Executor control states of the `RunAll` loop. -/
def IsExec : TState → Prop
  | .execReady _ => True
  | .execInvoking _ => True
  | .execSealing _ => True
  | _ => False

/-- Characterization of a chain node's `next_` field in terms of the
ghost flags: before any exchange the field is null; after the producer
exchange (only) it holds the successor; after the seal exchange (only) it
holds `Sealed()`.  Once both exchanges happened the node is destroyed and
the field is no longer read by the protocol. -/
def FieldOK (s : St) (x : Nat) : Prop :=
  match s.linked x, s.sealedF x with
  | false, false => s.next x = .null
  | true, false => ∃ y, s.succG x = some y ∧ s.next x = .node y
  | false, true => s.next x = .sealed
  | true, true => True

/-- The inductive invariant of the action-chain protocol. -/
structure Inv (s : St) : Prop where
  tailHead : s.tailLog.head? = some s.tail
  nodupC : (chain s).Nodup
  boundC : ∀ x ∈ chain s, x < s.numNodes
  path : PathOK s.succG (chain s)
  ilogPre : ilog s <+: chain s
  idleHigh : ∀ t, s.nthr ≤ t → s.thr t = .idle
  fresh : ∀ x, s.numNodes ≤ x →
    s.next x = .null ∧ s.linked x = false ∧ s.sealedF x = false ∧
      s.destroyed x = false ∧ s.succG x = none
  succNoneOut : ∀ x, x ∉ chain s → s.succG x = none
  createdInv : ∀ t n, s.thr t = .created n →
    n < s.numNodes ∧ n ∉ chain s ∧ s.next n = .null ∧ s.linked n = false ∧
      s.sealedF n = false ∧ s.destroyed n = false
  createdUniq : ∀ t u n m, s.thr t = .created n → s.thr u = .created m →
    t ≠ u → n ≠ m
  gotInv : ∀ t n x, s.thr t = .gotPrev n x →
    s.succG x = some n ∧ x ∈ chain s ∧ s.linked x = false
  gotUniq : ∀ t u n m x, s.thr t = .gotPrev n x → s.thr u = .gotPrev m x →
    t = u
  linkedSucc : ∀ x, s.linked x = true → s.succG x ≠ none
  linkedNoPending : ∀ x, s.linked x = true → ∀ t n, s.thr t ≠ .gotPrev n x
  unlinkedPending : ∀ x n, x ∈ chain s → s.succG x = some n →
    s.linked x = false → ∃ t, s.thr t = .gotPrev n x
  fieldChar : ∀ x, x ∈ chain s → FieldOK s x
  destroyedIff : ∀ x, s.destroyed x = true ↔
    (s.linked x = true ∧ s.sealedF x = true) ∨ (s.alive = false ∧ x = s.tail)
  dlogNd : ∀ e ∈ s.destroyLog, s.destroyed e.nd = true
  destroyedDlog : ∀ x, s.destroyed x = true → ∃ e ∈ s.destroyLog, e.nd = x
  dlogNodup : (s.destroyLog.map DEntry.nd).Nodup
  dlogWho : ∀ e ∈ s.destroyLog,
    (e.who = .execW → (∃ y, e.obs = .node y) ∧ e.fld = .sealed) ∧
      (e.who = .prodW → e.obs = .sealed ∧ ∃ y, e.fld = .node y) ∧
      (e.who = .finW → e.obs = .sealed ∧ e.fld = .sealed)
  dlogFin : if s.alive = true then ∀ e ∈ s.destroyLog, e.who ≠ .finW
    else ∃ hd tl, s.destroyLog = hd :: tl ∧ hd.who = .finW ∧
      hd.nd = s.tail ∧ ∀ e ∈ tl, e.who ≠ .finW
  sealedInIlog : ∀ x, s.sealedF x = true → x ∈ ilog s
  execUniq : ∀ t u, IsExec (s.thr t) → IsExec (s.thr u) → t = u
  readyCfg : ∀ t w, s.thr t = .execReady w →
    ∃ rest, chain s = ilog s ++ w :: rest
  busyCfg : ∀ t w, s.thr t = .execInvoking w ∨ s.thr t = .execSealing w →
    s.invokedLog.head? = some w ∧ s.sealedF w = false
  ilogSealed : ∀ x ∈ ilog s, s.sealedF x = true ∨
    (s.invokedLog.head? = some x ∧
      ∃ t, s.thr t = .execInvoking x ∨ s.thr t = .execSealing x)
  sealLinked : ∀ x, s.sealedF x = true → s.linked x = true ∨
    (s.invokedLog.head? = some x ∧ ∀ u, ¬ IsExec (s.thr u))
  cfg : (∃ t, IsExec (s.thr t)) ∨
    (∃ w, s.invokedLog.head? = some w ∧ s.sealedF w = true ∧
      s.linked w = false)
  nodeComplete : ∀ x, x < s.numNodes → x ∈ chain s ∨ ∃ t, s.thr t = .created x
  deadDestroyed : s.alive = false → ∀ x, x < s.numNodes → s.destroyed x = true
  deadIdle : s.alive = false → ∀ u, s.thr u = .idle

end ActionChain

namespace ActionChain

/-! ## Consequences of the invariant used throughout the preservation
proof -/

theorem tail_mem_chain {s : St} (hI : Inv s) : s.tail ∈ chain s := by
  have h : s.tail ∈ s.tailLog := List.mem_of_mem_head? (by simp [hI.tailHead])
  simpa [chain] using h

theorem chain_getLast {s : St} (hI : Inv s) :
    (chain s).getLast? = some s.tail := by
  rw [chain, getLast?_reverse_eq_head?, hI.tailHead]

theorem succ_tail_none {s : St} (hI : Inv s) : s.succG s.tail = none :=
  pathOK_last_none hI.path (chain_getLast hI)

theorem ilog_nodup {s : St} (hI : Inv s) : (ilog s).Nodup :=
  hI.nodupC.sublist hI.ilogPre.sublist

theorem mem_ilog_mem_chain {s : St} (hI : Inv s) {x : Nat}
    (hx : x ∈ ilog s) : x ∈ chain s :=
  hI.ilogPre.subset hx

theorem head_mem_ilog {s : St} {w : Nat} (hw : s.invokedLog.head? = some w) :
    w ∈ ilog s := by
  have h : w ∈ s.invokedLog := List.mem_of_mem_head? (by simp [hw])
  simpa [ilog] using h

theorem ready_not_in_ilog {s : St} (hI : Inv s) {t w : Nat}
    (ht : s.thr t = .execReady w) : w ∉ ilog s := by
  obtain ⟨rest, hrest⟩ := hI.readyCfg t w ht
  have hnd := hI.nodupC
  rw [hrest, List.nodup_append] at hnd
  exact fun hw => hnd.2.2 hw (List.mem_cons_self _ _)

theorem ready_sealedF_false {s : St} (hI : Inv s) {t w : Nat}
    (ht : s.thr t = .execReady w) : s.sealedF w = false := by
  cases h : s.sealedF w with
  | false => rfl
  | true => exact absurd (hI.sealedInIlog w h) (ready_not_in_ilog hI ht)

theorem fieldOK_congr {s s' : St} {x : Nat} (h : FieldOK s x)
    (hl : s'.linked x = s.linked x) (hs : s'.sealedF x = s.sealedF x)
    (hn : s'.next x = s.next x) (hg : s'.succG x = s.succG x) :
    FieldOK s' x := by
  unfold FieldOK at h ⊢
  rw [hl, hs, hn, hg]
  exact h

theorem chain_decomp_at_head {s : St} (hI : Inv s) {x n : Nat}
    (hhead : s.invokedLog.head? = some x) (hsucc : s.succG x = some n) :
    ∃ l2, chain s = ilog s ++ n :: l2 := by
  obtain ⟨r, hr⟩ : ∃ r, s.invokedLog = x :: r := by
    cases hl : s.invokedLog with
    | nil => rw [hl] at hhead; cases hhead
    | cons a r =>
      rw [hl] at hhead
      simp only [List.head?_cons, Option.some.injEq] at hhead
      exact ⟨r, by rw [hhead]⟩
  have hilog : ilog s = r.reverse ++ [x] := by simp [ilog, hr]
  have hx_mem : x ∈ chain s :=
    mem_ilog_mem_chain hI (by rw [hilog]; simp)
  obtain ⟨l1, l2, hC⟩ := pathOK_mem_succ hI.path hx_mem hsucc
  obtain ⟨suf, hsuf⟩ := hI.ilogPre
  have heq : r.reverse ++ x :: suf = l1 ++ x :: (n :: l2) := by
    rw [hilog] at hsuf
    rw [← hC, ← hsuf]
    simp
  have hx_nr : x ∉ r.reverse := by
    have hnd := ilog_nodup hI
    rw [hilog, List.nodup_append] at hnd
    exact fun hxr => hnd.2.2 hxr (by simp)
  have hx_nl1 : x ∉ l1 := by
    have hnd := hI.nodupC
    rw [hC, List.nodup_append] at hnd
    exact fun hxl => hnd.2.2 hxl (by simp)
  obtain ⟨h1, h2⟩ := append_cons_eq_of_not_mem heq hx_nr hx_nl1
  exact ⟨l2, by rw [← hsuf, h2]⟩

end ActionChain

namespace ActionChain

/-! ## Preservation of the invariant, one action at a time -/

theorem stepF_not_alive {s : St} (a : Act) (ha : ¬ s.alive = true) :
    stepF a s = s := by
  simp only [stepF, if_neg ha]


theorem update_thr_cases {f : Nat → TState} {t u : Nat} {v w : TState}
    (h : Function.update f t v u = w) :
    (u = t ∧ v = w) ∨ (u ≠ t ∧ f u = w) := by
  by_cases hut : u = t
  · subst hut
    rw [Function.update_same] at h
    exact Or.inl ⟨rfl, h⟩
  · rw [Function.update_noteq hut] at h
    exact Or.inr ⟨hut, h⟩

theorem isExec_cases {ts : TState} (h : IsExec ts) :
    (∃ w, ts = .execReady w) ∨ (∃ w, ts = .execInvoking w) ∨
      (∃ w, ts = .execSealing w) := by
  cases ts with
  | execReady w => exact Or.inl ⟨w, rfl⟩
  | execInvoking w => exact Or.inr (Or.inl ⟨w, rfl⟩)
  | execSealing w => exact Or.inr (Or.inr ⟨w, rfl⟩)
  | idle => exact h.elim
  | created n => exact h.elim
  | gotPrev n x => exact h.elim

theorem inv_start {s : St} (hI : Inv s) (t : Nat) :
    Inv (stepF (.start t) s) := by
  by_cases ha : s.alive = true
  case neg => rw [stepF_not_alive _ ha]; exact hI
  by_cases hg : t < s.nthr ∧ s.thr t = .idle
  case neg => simp only [stepF, ha, if_true, if_neg hg]; exact hI
  simp only [stepF, ha, if_true, if_pos hg]
  obtain ⟨htn, hti⟩ := hg
  have hchain_ne : ∀ x, x ∈ chain s → x ≠ s.numNodes :=
    fun x hx => Nat.ne_of_lt (hI.boundC x hx)
  refine { tailHead := hI.tailHead, nodupC := hI.nodupC, path := hI.path,
           ilogPre := hI.ilogPre, succNoneOut := hI.succNoneOut,
           linkedSucc := hI.linkedSucc, dlogNd := hI.dlogNd,
           destroyedDlog := hI.destroyedDlog, dlogNodup := hI.dlogNodup,
           dlogWho := hI.dlogWho, sealedInIlog := hI.sealedInIlog,
           boundC := by exact fun x hx => Nat.lt_succ_of_lt (hI.boundC x hx),
           destroyedIff := by
             intro x
             simpa [ha] using hI.destroyedIff x,
           dlogFin := by
             dsimp only
             rw [if_pos rfl]
             have h := hI.dlogFin
             rw [if_pos ha] at h
             exact h,
           idleHigh := ?_, fresh := ?_, createdInv := ?_, createdUniq := ?_,
           gotInv := ?_, gotUniq := ?_, linkedNoPending := ?_,
           unlinkedPending := ?_, fieldChar := ?_, execUniq := ?_,
           readyCfg := ?_, busyCfg := ?_, ilogSealed := ?_, sealLinked := ?_,
           cfg := ?_, nodeComplete := ?_, deadDestroyed := ?_,
           deadIdle := ?_ }
  · -- idleHigh
    intro u hu
    dsimp only at hu ⊢
    have hut : u ≠ t := by intro he; subst he; omega
    rw [Function.update_noteq hut]
    exact hI.idleHigh u hu
  · -- fresh
    intro x hx
    dsimp only at hx ⊢
    have hxn : x ≠ s.numNodes := by omega
    rw [Function.update_noteq hxn]
    exact hI.fresh x (by omega)
  · -- createdInv
    intro u n hu
    dsimp only at hu ⊢
    rcases update_thr_cases hu with ⟨rfl, hv⟩ | ⟨hut, hu2⟩
    · have hn : s.numNodes = n := by injection hv
      subst hn
      have h0 := hI.fresh s.numNodes (le_refl _)
      refine ⟨Nat.lt_succ_self _, fun hc => (hchain_ne _ hc) rfl, ?_, h0.2.1,
        h0.2.2.1, h0.2.2.2.1⟩
      rw [Function.update_same]
    · obtain ⟨h1, h2, h3, h4, h5, h6⟩ := hI.createdInv u n hu2
      refine ⟨Nat.lt_succ_of_lt h1, h2, ?_, h4, h5, h6⟩
      rw [Function.update_noteq (Nat.ne_of_lt h1)]
      exact h3
  · -- createdUniq
    intro u v n m hu hv huv
    dsimp only at hu hv
    rcases update_thr_cases hu with ⟨rfl, hn⟩ | ⟨hut, hu2⟩ <;>
      rcases update_thr_cases hv with ⟨hv1, hm⟩ | ⟨hvt, hv2⟩
    · exact absurd hv1.symm huv
    · have hn2 : s.numNodes = n := by injection hn
      have hm2 := (hI.createdInv v m hv2).1
      omega
    · have hm2 : s.numNodes = m := by injection hm
      subst hv1
      have hn2 := (hI.createdInv u n hu2).1
      omega
    · exact hI.createdUniq u v n m hu2 hv2 huv
  · -- gotInv
    intro u n x hu
    dsimp only at hu ⊢
    rcases update_thr_cases hu with ⟨rfl, hv⟩ | ⟨hut, hu2⟩
    · cases hv
    · exact hI.gotInv u n x hu2
  · -- gotUniq
    intro u v n m x hu hv
    dsimp only at hu hv
    rcases update_thr_cases hu with ⟨rfl, hv1⟩ | ⟨hut, hu2⟩
    · cases hv1
    rcases update_thr_cases hv with ⟨rfl, hv2⟩ | ⟨hvt, hv2⟩
    · cases hv2
    exact hI.gotUniq u v n m x hu2 hv2
  · -- linkedNoPending
    intro x hx u n
    dsimp only at hx ⊢
    intro hu
    rcases update_thr_cases hu with ⟨rfl, hv⟩ | ⟨hut, hu2⟩
    · cases hv
    · exact hI.linkedNoPending x hx u n hu2
  · -- unlinkedPending
    intro x n hx hsx hlx
    obtain ⟨u, hu⟩ := hI.unlinkedPending x n hx hsx hlx
    have hut : u ≠ t := by
      intro he
      rw [he, hti] at hu
      cases hu
    refine ⟨u, ?_⟩
    dsimp only
    rw [Function.update_noteq hut]
    exact hu
  · -- fieldChar
    intro x hx
    refine fieldOK_congr (hI.fieldChar x hx) rfl rfl ?_ rfl
    dsimp only
    rw [Function.update_noteq (hchain_ne x hx)]
  · -- execUniq
    intro u v hu hv
    dsimp only at hu hv
    have hne : ∀ z, Function.update s.thr t (.created s.numNodes) z =
        s.thr z ∨ z = t := by
      intro z
      by_cases hz : z = t
      · exact Or.inr hz
      · exact Or.inl (Function.update_noteq hz _ _)
    rcases hne u with h1 | rfl
    · rcases hne v with h2 | rfl
      · exact hI.execUniq u v (h1 ▸ hu) (h2 ▸ hv)
      · rw [Function.update_same] at hv
        exact hv.elim
    · rw [Function.update_same] at hu
      exact hu.elim
  · -- readyCfg
    intro u w hu
    dsimp only at hu ⊢
    rcases update_thr_cases hu with ⟨rfl, hv⟩ | ⟨hut, hu2⟩
    · cases hv
    · exact hI.readyCfg u w hu2
  · -- busyCfg
    intro u w hu
    dsimp only at hu ⊢
    rcases hu with hu | hu <;>
      rcases update_thr_cases hu with ⟨rfl, hv⟩ | ⟨hut, hu2⟩
    · cases hv
    · exact hI.busyCfg u w (Or.inl hu2)
    · cases hv
    · exact hI.busyCfg u w (Or.inr hu2)
  · -- ilogSealed
    intro x hx
    rcases hI.ilogSealed x hx with h | ⟨h1, u, h2⟩
    · exact Or.inl h
    · have hut : u ≠ t := by
        intro he
        rw [he, hti] at h2
        rcases h2 with h2 | h2 <;> cases h2
      refine Or.inr ⟨h1, u, ?_⟩
      dsimp only
      rw [Function.update_noteq hut]
      exact h2
  · -- sealLinked
    intro x hx
    rcases hI.sealLinked x hx with h | ⟨h1, h2⟩
    · exact Or.inl h
    · refine Or.inr ⟨h1, fun u => ?_⟩
      dsimp only
      by_cases hut : u = t
      · subst hut
        rw [Function.update_same]
        exact fun hc => hc
      · rw [Function.update_noteq hut]
        exact h2 u
  · -- cfg
    rcases hI.cfg with ⟨u, hu⟩ | ⟨w, h1, h2, h3⟩
    · have hut : u ≠ t := by
        intro he
        rw [he, hti] at hu
        exact hu
      refine Or.inl ⟨u, ?_⟩
      dsimp only
      rw [Function.update_noteq hut]
      exact hu
    · exact Or.inr ⟨w, h1, h2, h3⟩
  · -- nodeComplete
    intro x hx
    dsimp only at hx ⊢
    rcases Nat.lt_succ_iff_lt_or_eq.mp hx with hx2 | hx2
    · rcases hI.nodeComplete x hx2 with h | ⟨u, hu⟩
      · exact Or.inl h
      · have hut : u ≠ t := by
          intro he
          rw [he, hti] at hu
          cases hu
        refine Or.inr ⟨u, ?_⟩
        rw [Function.update_noteq hut]
        exact hu
    · subst hx2
      refine Or.inr ⟨t, ?_⟩
      rw [Function.update_same]
  · -- deadDestroyed
    intro hd
    have hd2 : true = false := hd
    cases hd2
  · -- deadIdle
    intro hd
    have hd2 : true = false := hd
    cases hd2

theorem inv_exchTail_core {s s' : St} (hI : Inv s) {t n : Nat}
    (ha : s.alive = true) (h : s.thr t = .created n)
    (hnum : s'.numNodes = s.numNodes)
    (hnext : s'.next = s.next)
    (hlinked : s'.linked = s.linked)
    (hsealed : s'.sealedF = s.sealedF)
    (hdest : s'.destroyed = s.destroyed)
    (hsucc : s'.succG = Function.update s.succG s.tail (some n))
    (htail : s'.tail = n)
    (hthr : s'.thr = Function.update s.thr t (.gotPrev n s.tail))
    (hnthr : s'.nthr = s.nthr)
    (htlog : s'.tailLog = n :: s.tailLog)
    (hilog : s'.invokedLog = s.invokedLog)
    (hdlog : s'.destroyLog = s.destroyLog)
    (halive : s'.alive = s.alive) : Inv s' := by
  obtain ⟨hn1, hn2, hn3, hn4, hn5, hn6⟩ := hI.createdInv t n h
  have hzmem : s.tail ∈ chain s := tail_mem_chain hI
  have hzlast : (chain s).getLast? = some s.tail := chain_getLast hI
  have hzsucc : s.succG s.tail = none := succ_tail_none hI
  have hzlink : s.linked s.tail = false := by
    cases hlz : s.linked s.tail with
    | false => rfl
    | true => exact absurd hzsucc (hI.linkedSucc _ hlz)
  have hnz : n ≠ s.tail := fun he => hn2 (he ▸ hzmem)
  have hch : chain s' = chain s ++ [n] := by
    simp only [chain, htlog, List.reverse_cons]
  have hil : ilog s' = ilog s := by simp only [ilog, hilog]
  refine { tailHead := ?_, nodupC := ?_, boundC := ?_, path := ?_,
           ilogPre := ?_, idleHigh := ?_, fresh := ?_, succNoneOut := ?_,
           createdInv := ?_, createdUniq := ?_, gotInv := ?_, gotUniq := ?_,
           linkedSucc := ?_, linkedNoPending := ?_, unlinkedPending := ?_,
           fieldChar := ?_, destroyedIff := ?_, dlogNd := ?_,
           destroyedDlog := ?_, dlogNodup := ?_, dlogWho := ?_, dlogFin := ?_,
           sealedInIlog := ?_, execUniq := ?_, readyCfg := ?_, busyCfg := ?_,
           ilogSealed := ?_, sealLinked := ?_, cfg := ?_, nodeComplete := ?_,
           deadDestroyed := ?_, deadIdle := ?_ }
  · -- tailHead
    rw [htlog, htail]
    rfl
  · -- nodupC
    rw [hch, List.nodup_append]
    refine ⟨hI.nodupC, List.nodup_singleton n, ?_⟩
    intro a ha2 hb
    rw [List.mem_singleton] at hb
    subst hb
    exact hn2 ha2
  · -- boundC
    intro x hx
    rw [hch] at hx
    rw [hnum]
    rcases List.mem_append.mp hx with h1 | h1
    · exact hI.boundC x h1
    · rw [List.mem_singleton] at h1
      subst h1
      exact hn1
  · -- path
    rw [hch, hsucc]
    exact pathOK_snoc hI.path hzlast hn2 (hI.succNoneOut n hn2)
  · -- ilogPre
    rw [hil, hch]
    exact hI.ilogPre.trans (List.prefix_append _ _)
  · -- idleHigh
    intro u hu
    rw [hnthr] at hu
    rw [hthr]
    have hut : u ≠ t := by
      intro he
      subst he
      rw [hI.idleHigh u hu] at h
      cases h
    rw [Function.update_noteq hut]
    exact hI.idleHigh u hu
  · -- fresh
    intro x hx
    rw [hnum] at hx
    have h0 := hI.fresh x hx
    have hxz : x ≠ s.tail :=
      fun he => absurd (hI.boundC _ (he ▸ hzmem)) (by omega)
    rw [hnext, hlinked, hsealed, hdest, hsucc]
    exact ⟨h0.1, h0.2.1, h0.2.2.1, h0.2.2.2.1, by
      rw [Function.update_noteq hxz]; exact h0.2.2.2.2⟩
  · -- succNoneOut
    intro x hx
    rw [hch] at hx
    have hx1 : x ∉ chain s := fun hm => hx (List.mem_append_left _ hm)
    have hxz : x ≠ s.tail := fun he => hx1 (he ▸ hzmem)
    rw [hsucc, Function.update_noteq hxz]
    exact hI.succNoneOut x hx1
  · -- createdInv
    intro u m hu
    rw [hthr] at hu
    rcases update_thr_cases hu with ⟨heq, hv⟩ | ⟨hut, hu2⟩
    · cases hv
    · obtain ⟨m1, m2, m3, m4, m5, m6⟩ := hI.createdInv u m hu2
      have hmn : m ≠ n := hI.createdUniq u t m n hu2 h hut
      rw [hnum, hch, hnext, hlinked, hsealed, hdest]
      refine ⟨m1, ?_, m3, m4, m5, m6⟩
      intro hmem
      rcases List.mem_append.mp hmem with h1 | h1
      · exact m2 h1
      · rw [List.mem_singleton] at h1
        exact hmn h1
  · -- createdUniq
    intro u v m m2 hu hv huv
    rw [hthr] at hu hv
    rcases update_thr_cases hu with ⟨heq, hv1⟩ | ⟨hut, hu2⟩
    · cases hv1
    rcases update_thr_cases hv with ⟨heq, hv2⟩ | ⟨hvt, hv2⟩
    · cases hv2
    exact hI.createdUniq u v m m2 hu2 hv2 huv
  · -- gotInv
    intro u m x hu
    rw [hthr] at hu
    rcases update_thr_cases hu with ⟨heq, hv⟩ | ⟨hut, hu2⟩
    · have e1 : n = m := by injection hv
      have e2 : s.tail = x := by injection hv
      subst e1
      subst e2
      refine ⟨by rw [hsucc, Function.update_same], ?_, ?_⟩
      · rw [hch]
        exact List.mem_append_left _ hzmem
      · rw [hlinked]
        exact hzlink
    · obtain ⟨g1, g2, g3⟩ := hI.gotInv u m x hu2
      have hxz : x ≠ s.tail := by
        intro he
        rw [he, hzsucc] at g1
        cases g1
      refine ⟨by rw [hsucc, Function.update_noteq hxz]; exact g1, ?_, ?_⟩
      · rw [hch]
        exact List.mem_append_left _ g2
      · rw [hlinked]
        exact g3
  · -- gotUniq
    intro u v m m2 x hu hv
    rw [hthr] at hu hv
    rcases update_thr_cases hu with ⟨hu1, hv1⟩ | ⟨hut, hu2⟩ <;>
      rcases update_thr_cases hv with ⟨hw1, hw2⟩ | ⟨hvt, hw2⟩
    · rw [hu1, hw1]
    · have e2 : s.tail = x := by injection hv1
      have g1 := (hI.gotInv v m2 x hw2).1
      rw [← e2, hzsucc] at g1
      cases g1
    · have e2 : s.tail = x := by injection hw2
      have g1 := (hI.gotInv u m x hu2).1
      rw [← e2, hzsucc] at g1
      cases g1
    · exact hI.gotUniq u v m m2 x hu2 hw2
  · -- linkedSucc
    intro x hx
    rw [hlinked] at hx
    rw [hsucc]
    by_cases hxz : x = s.tail
    · subst hxz
      rw [Function.update_same]
      simp
    · rw [Function.update_noteq hxz]
      exact hI.linkedSucc x hx
  · -- linkedNoPending
    intro x hx u m
    rw [hlinked] at hx
    rw [hthr]
    intro hu
    rcases update_thr_cases hu with ⟨heq, hv⟩ | ⟨hut, hu2⟩
    · have e2 : s.tail = x := by injection hv
      rw [← e2, hzlink] at hx
      cases hx
    · exact hI.linkedNoPending x hx u m hu2
  · -- unlinkedPending
    intro x m hx hsx hlx
    rw [hch] at hx
    rw [hsucc] at hsx
    rw [hlinked] at hlx
    by_cases hxz : x = s.tail
    · subst hxz
      rw [Function.update_same] at hsx
      have hnm : n = m := by injection hsx
      subst hnm
      exact ⟨t, by rw [hthr, Function.update_same]⟩
    · rw [Function.update_noteq hxz] at hsx
      have hxch : x ∈ chain s := by
        rcases List.mem_append.mp hx with h1 | h1
        · exact h1
        · rw [List.mem_singleton] at h1
          subst h1
          rw [hI.succNoneOut x hn2] at hsx
          cases hsx
      obtain ⟨u, hu⟩ := hI.unlinkedPending x m hxch hsx hlx
      have hut : u ≠ t := by
        intro he
        rw [he, h] at hu
        cases hu
      exact ⟨u, by rw [hthr, Function.update_noteq hut]; exact hu⟩
  · -- fieldChar
    intro x hx
    rw [hch] at hx
    rcases List.mem_append.mp hx with h1 | h1
    · by_cases hxz : x = s.tail
      · subst hxz
        have hf := hI.fieldChar s.tail hzmem
        unfold FieldOK at hf ⊢
        rw [hlinked, hsealed, hnext, hzlink]
        rw [hzlink] at hf
        cases hse : s.sealedF s.tail
        · rw [hse] at hf
          exact hf
        · rw [hse] at hf
          exact hf
      · refine fieldOK_congr (hI.fieldChar x h1) (by rw [hlinked])
          (by rw [hsealed]) (by rw [hnext]) ?_
        rw [hsucc, Function.update_noteq hxz]
    · rw [List.mem_singleton] at h1
      subst h1
      unfold FieldOK
      rw [hlinked, hsealed, hn4, hn5, hnext]
      exact hn3
  · -- destroyedIff
    intro x
    rw [hdest, hlinked, hsealed, halive, htail, ha]
    have hx := hI.destroyedIff x
    rw [ha] at hx
    simpa using hx
  · -- dlogNd
    intro e he
    rw [hdlog] at he
    rw [hdest]
    exact hI.dlogNd e he
  · -- destroyedDlog
    intro x hx
    rw [hdest] at hx
    rw [hdlog]
    exact hI.destroyedDlog x hx
  · -- dlogNodup
    rw [hdlog]
    exact hI.dlogNodup
  · -- dlogWho
    rw [hdlog]
    exact hI.dlogWho
  · -- dlogFin
    rw [halive, ha, if_pos rfl, hdlog]
    have h2 := hI.dlogFin
    rw [if_pos ha] at h2
    exact h2
  · -- sealedInIlog
    intro x hx
    rw [hsealed] at hx
    rw [hil]
    exact hI.sealedInIlog x hx
  · -- execUniq
    intro u v hu hv
    rw [hthr] at hu hv
    have hne : ∀ z, z ≠ t →
        Function.update s.thr t (.gotPrev n s.tail) z = s.thr z :=
      fun z hz => Function.update_noteq hz _ _
    by_cases hut : u = t
    · subst hut
      rw [Function.update_same] at hu
      exact hu.elim
    by_cases hvt : v = t
    · subst hvt
      rw [Function.update_same] at hv
      exact hv.elim
    rw [hne u hut] at hu
    rw [hne v hvt] at hv
    exact hI.execUniq u v hu hv
  · -- readyCfg
    intro u w hu
    rw [hthr] at hu
    rcases update_thr_cases hu with ⟨heq, hv⟩ | ⟨hut, hu2⟩
    · cases hv
    · obtain ⟨rest, hr⟩ := hI.readyCfg u w hu2
      rw [hch, hil]
      exact ⟨rest ++ [n], by rw [hr]; simp⟩
  · -- busyCfg
    intro u w hu
    rw [hthr] at hu
    rw [hilog, hsealed]
    rcases hu with hu | hu <;>
      rcases update_thr_cases hu with ⟨heq, hv⟩ | ⟨hut, hu2⟩
    · cases hv
    · exact hI.busyCfg u w (Or.inl hu2)
    · cases hv
    · exact hI.busyCfg u w (Or.inr hu2)
  · -- ilogSealed
    intro x hx
    rw [hil] at hx
    rcases hI.ilogSealed x hx with h1 | ⟨h1, u, h2⟩
    · rw [hsealed]
      exact Or.inl h1
    · have hut : u ≠ t := by
        intro he
        rw [he, h] at h2
        rcases h2 with h2 | h2 <;> cases h2
      refine Or.inr ⟨by rw [hilog]; exact h1, u, ?_⟩
      rw [hthr, Function.update_noteq hut]
      exact h2
  · -- sealLinked
    intro x hx
    rw [hsealed] at hx
    rcases hI.sealLinked x hx with h1 | ⟨h1, h2⟩
    · rw [hlinked]
      exact Or.inl h1
    · refine Or.inr ⟨by rw [hilog]; exact h1, fun u => ?_⟩
      rw [hthr]
      by_cases hut : u = t
      · subst hut
        rw [Function.update_same]
        exact fun hc => hc
      · rw [Function.update_noteq hut]
        exact h2 u
  · -- cfg
    rcases hI.cfg with ⟨u, hu⟩ | ⟨w, h1, h2, h3⟩
    · have hut : u ≠ t := by
        intro he
        rw [he, h] at hu
        exact hu
      refine Or.inl ⟨u, ?_⟩
      rw [hthr, Function.update_noteq hut]
      exact hu
    · exact Or.inr ⟨w, by rw [hilog]; exact h1, by rw [hsealed]; exact h2,
        by rw [hlinked]; exact h3⟩
  · -- nodeComplete
    intro x hx
    rw [hnum] at hx
    rcases hI.nodeComplete x hx with h1 | ⟨u, hu⟩
    · rw [hch]
      exact Or.inl (List.mem_append_left _ h1)
    · by_cases hut : u = t
      · subst hut
        rw [h] at hu
        have : n = x := by injection hu
        subst this
        rw [hch]
        exact Or.inl (List.mem_append_right _ (by simp))
      · refine Or.inr ⟨u, ?_⟩
        rw [hthr, Function.update_noteq hut]
        exact hu
  · -- deadDestroyed
    intro hd
    rw [halive, ha] at hd
    cases hd
  · -- deadIdle
    intro hd
    rw [halive, ha] at hd
    cases hd

theorem inv_exchTail {s : St} (hI : Inv s) (t : Nat) :
    Inv (stepF (.exchTail t) s) := by
  by_cases ha : s.alive = true
  case neg => rw [stepF_not_alive _ ha]; exact hI
  cases h : s.thr t with
  | created n =>
    simp only [stepF, ha, if_true, h]
    exact inv_exchTail_core hI ha h rfl rfl rfl rfl rfl rfl rfl rfl rfl rfl
      rfl rfl ha.symm
  | idle => simp only [stepF, ha, if_true, h]; exact hI
  | gotPrev n x => simp only [stepF, ha, if_true, h]; exact hI
  | execReady w => simp only [stepF, ha, if_true, h]; exact hI
  | execInvoking w => simp only [stepF, ha, if_true, h]; exact hI
  | execSealing w => simp only [stepF, ha, if_true, h]; exact hI

theorem inv_exchNext_null_core {s s' : St} (hI : Inv s) {t n x : Nat}
    (ha : s.alive = true) (h : s.thr t = .gotPrev n x)
    (hfield : s.next x = .null)
    (hnum : s'.numNodes = s.numNodes)
    (hnext : s'.next = Function.update s.next x (.node n))
    (hlinked : s'.linked = Function.update s.linked x true)
    (hsealed : s'.sealedF = s.sealedF)
    (hdest : s'.destroyed = s.destroyed)
    (hsucc : s'.succG = s.succG)
    (htail : s'.tail = s.tail)
    (hthr : s'.thr = Function.update s.thr t .idle)
    (hnthr : s'.nthr = s.nthr)
    (htlog : s'.tailLog = s.tailLog)
    (hilog : s'.invokedLog = s.invokedLog)
    (hdlog : s'.destroyLog = s.destroyLog)
    (halive : s'.alive = s.alive) : Inv s' := by
  obtain ⟨g1, g2, g3⟩ := hI.gotInv t n x h
  have hsx : s.sealedF x = false := by
    cases hv : s.sealedF x with
    | false => rfl
    | true =>
      have hf := hI.fieldChar x g2
      unfold FieldOK at hf
      rw [g3, hv] at hf
      rw [hfield] at hf
      cases hf
  have hch : chain s' = chain s := by simp only [chain, htlog]
  have hil : ilog s' = ilog s := by simp only [ilog, hilog]
  refine { tailHead := ?_, nodupC := ?_, boundC := ?_, path := ?_,
           ilogPre := ?_, idleHigh := ?_, fresh := ?_, succNoneOut := ?_,
           createdInv := ?_, createdUniq := ?_, gotInv := ?_, gotUniq := ?_,
           linkedSucc := ?_, linkedNoPending := ?_, unlinkedPending := ?_,
           fieldChar := ?_, destroyedIff := ?_, dlogNd := ?_,
           destroyedDlog := ?_, dlogNodup := ?_, dlogWho := ?_, dlogFin := ?_,
           sealedInIlog := ?_, execUniq := ?_, readyCfg := ?_, busyCfg := ?_,
           ilogSealed := ?_, sealLinked := ?_, cfg := ?_, nodeComplete := ?_,
           deadDestroyed := ?_, deadIdle := ?_ }
  · rw [htlog, htail]; exact hI.tailHead
  · rw [hch]; exact hI.nodupC
  · rw [hch, hnum]; exact hI.boundC
  · rw [hch, hsucc]; exact hI.path
  · rw [hch, hil]; exact hI.ilogPre
  · -- idleHigh
    intro u hu
    rw [hnthr] at hu
    rw [hthr]
    by_cases hut : u = t
    · subst hut
      rw [Function.update_same]
    · rw [Function.update_noteq hut]
      exact hI.idleHigh u hu
  · -- fresh
    intro z hz
    rw [hnum] at hz
    have h0 := hI.fresh z hz
    have hzx : z ≠ x := fun he => absurd (hI.boundC _ (he ▸ g2)) (by omega)
    rw [hnext, hlinked, hsealed, hdest, hsucc,
      Function.update_noteq hzx, Function.update_noteq hzx]
    exact h0
  · -- succNoneOut
    intro z hz
    rw [hch] at hz
    rw [hsucc]
    exact hI.succNoneOut z hz
  · -- createdInv
    intro u m hu
    rw [hthr] at hu
    rcases update_thr_cases hu with ⟨heq, hv⟩ | ⟨hut, hu2⟩
    · cases hv
    · obtain ⟨m1, m2, m3, m4, m5, m6⟩ := hI.createdInv u m hu2
      have hmx : m ≠ x := fun he => m2 (he ▸ g2)
      rw [hnum, hch, hnext, hlinked, hsealed, hdest,
        Function.update_noteq hmx, Function.update_noteq hmx]
      exact ⟨m1, m2, m3, m4, m5, m6⟩
  · -- createdUniq
    intro u v m m2 hu hv huv
    rw [hthr] at hu hv
    rcases update_thr_cases hu with ⟨heq, hv1⟩ | ⟨hut, hu2⟩
    · cases hv1
    rcases update_thr_cases hv with ⟨heq, hv2⟩ | ⟨hvt, hv2⟩
    · cases hv2
    exact hI.createdUniq u v m m2 hu2 hv2 huv
  · -- gotInv
    intro u m z hu
    rw [hthr] at hu
    rcases update_thr_cases hu with ⟨heq, hv⟩ | ⟨hut, hu2⟩
    · cases hv
    · obtain ⟨q1, q2, q3⟩ := hI.gotInv u m z hu2
      have hzx : z ≠ x := by
        intro he
        subst he
        exact hut (hI.gotUniq u t m n z hu2 h)
      rw [hsucc, hch, hlinked, Function.update_noteq hzx]
      exact ⟨q1, q2, q3⟩
  · -- gotUniq
    intro u v m m2 z hu hv
    rw [hthr] at hu hv
    rcases update_thr_cases hu with ⟨heq, hv1⟩ | ⟨hut, hu2⟩
    · cases hv1
    rcases update_thr_cases hv with ⟨heq, hv2⟩ | ⟨hvt, hv2⟩
    · cases hv2
    exact hI.gotUniq u v m m2 z hu2 hv2
  · -- linkedSucc
    intro z hz
    rw [hlinked] at hz
    rw [hsucc]
    by_cases hzx : z = x
    · subst hzx
      rw [g1]
      simp
    · rw [Function.update_noteq hzx] at hz
      exact hI.linkedSucc z hz
  · -- linkedNoPending
    intro z hz u m
    rw [hlinked] at hz
    rw [hthr]
    by_cases hut : u = t
    · subst hut
      rw [Function.update_same]
      intro hc
      cases hc
    · rw [Function.update_noteq hut]
      by_cases hzx : z = x
      · intro hu
        rw [hzx] at hu
        exact hut (hI.gotUniq u t m n x hu h)
      · rw [Function.update_noteq hzx] at hz
        exact hI.linkedNoPending z hz u m
  · -- unlinkedPending
    intro z m hz hsz hlz
    rw [hch] at hz
    rw [hsucc] at hsz
    rw [hlinked] at hlz
    by_cases hzx : z = x
    · subst hzx
      rw [Function.update_same] at hlz
      cases hlz
    · rw [Function.update_noteq hzx] at hlz
      obtain ⟨u, hu⟩ := hI.unlinkedPending z m hz hsz hlz
      have hut : u ≠ t := by
        intro he
        rw [he, h] at hu
        injection hu with e1 e2
        exact hzx e2.symm
      exact ⟨u, by rw [hthr, Function.update_noteq hut]; exact hu⟩
  · -- fieldChar
    intro z hz
    rw [hch] at hz
    by_cases hzx : z = x
    · subst hzx
      unfold FieldOK
      rw [hlinked, hsealed, Function.update_same, hsx]
      exact ⟨n, by rw [hsucc]; exact g1, by rw [hnext, Function.update_same]⟩
    · refine fieldOK_congr (hI.fieldChar z hz)
        (by rw [hlinked, Function.update_noteq hzx])
        (by rw [hsealed]) (by rw [hnext, Function.update_noteq hzx])
        (by rw [hsucc])
  · -- destroyedIff
    intro z
    by_cases hzx : z = x
    · rw [hzx, hdest, hlinked, hsealed, halive, htail, ha]
      rw [Function.update_same]
      constructor
      · intro hd
        rcases (hI.destroyedIff x).mp hd with ⟨l1, _⟩ | ⟨f1, _⟩
        · rw [g3] at l1
          cases l1
        · rw [ha] at f1
          cases f1
      · intro hr
        rcases hr with ⟨_, s1⟩ | ⟨f1, _⟩
        · rw [hsx] at s1
          cases s1
        · cases f1
    · rw [hdest, hlinked, hsealed, halive, htail, Function.update_noteq hzx]
      exact hI.destroyedIff z
  · -- dlogNd
    intro e he
    rw [hdlog] at he
    rw [hdest]
    exact hI.dlogNd e he
  · -- destroyedDlog
    intro z hz
    rw [hdest] at hz
    rw [hdlog]
    exact hI.destroyedDlog z hz
  · rw [hdlog]; exact hI.dlogNodup
  · rw [hdlog]; exact hI.dlogWho
  · -- dlogFin
    rw [halive, ha, if_pos rfl, hdlog]
    have h2 := hI.dlogFin
    rw [if_pos ha] at h2
    exact h2
  · -- sealedInIlog
    intro z hz
    rw [hsealed] at hz
    rw [hil]
    exact hI.sealedInIlog z hz
  · -- execUniq
    intro u v hu hv
    rw [hthr] at hu hv
    by_cases hut : u = t
    · subst hut
      rw [Function.update_same] at hu
      exact hu.elim
    by_cases hvt : v = t
    · subst hvt
      rw [Function.update_same] at hv
      exact hv.elim
    rw [Function.update_noteq hut] at hu
    rw [Function.update_noteq hvt] at hv
    exact hI.execUniq u v hu hv
  · -- readyCfg
    intro u w hu
    rw [hthr] at hu
    rcases update_thr_cases hu with ⟨heq, hv⟩ | ⟨hut, hu2⟩
    · cases hv
    · rw [hch, hil]
      exact hI.readyCfg u w hu2
  · -- busyCfg
    intro u w hu
    rw [hthr] at hu
    rw [hilog, hsealed]
    rcases hu with hu | hu <;>
      rcases update_thr_cases hu with ⟨heq, hv⟩ | ⟨hut, hu2⟩
    · cases hv
    · exact hI.busyCfg u w (Or.inl hu2)
    · cases hv
    · exact hI.busyCfg u w (Or.inr hu2)
  · -- ilogSealed
    intro z hz
    rw [hil] at hz
    rcases hI.ilogSealed z hz with h1 | ⟨h1, u, h2⟩
    · rw [hsealed]
      exact Or.inl h1
    · have hut : u ≠ t := by
        intro he
        rw [he, h] at h2
        rcases h2 with h2 | h2 <;> cases h2
      refine Or.inr ⟨by rw [hilog]; exact h1, u, ?_⟩
      rw [hthr, Function.update_noteq hut]
      exact h2
  · -- sealLinked
    intro z hz
    rw [hsealed] at hz
    rcases hI.sealLinked z hz with h1 | ⟨h1, h2⟩
    · rw [hlinked]
      by_cases hzx : z = x
      · subst hzx
        rw [Function.update_same]
        exact Or.inl rfl
      · rw [Function.update_noteq hzx]
        exact Or.inl h1
    · refine Or.inr ⟨by rw [hilog]; exact h1, fun u => ?_⟩
      rw [hthr]
      by_cases hut : u = t
      · subst hut
        rw [Function.update_same]
        exact fun hc => hc
      · rw [Function.update_noteq hut]
        exact h2 u
  · -- cfg
    rcases hI.cfg with ⟨u, hu⟩ | ⟨w, h1, h2, h3⟩
    · have hut : u ≠ t := by
        intro he
        rw [he, h] at hu
        exact hu
      refine Or.inl ⟨u, ?_⟩
      rw [hthr, Function.update_noteq hut]
      exact hu
    · have hwx : w ≠ x := by
        intro he
        rw [he, hsx] at h2
        cases h2
      refine Or.inr ⟨w, by rw [hilog]; exact h1, by rw [hsealed]; exact h2,
        ?_⟩
      rw [hlinked, Function.update_noteq hwx]
      exact h3
  · -- nodeComplete
    intro z hz
    rw [hnum] at hz
    rcases hI.nodeComplete z hz with h1 | ⟨u, hu⟩
    · rw [hch]
      exact Or.inl h1
    · have hut : u ≠ t := by
        intro he
        rw [he, h] at hu
        cases hu
      refine Or.inr ⟨u, ?_⟩
      rw [hthr, Function.update_noteq hut]
      exact hu
  · -- deadDestroyed
    intro hd
    rw [halive, ha] at hd
    cases hd
  · -- deadIdle
    intro hd
    rw [halive, ha] at hd
    cases hd

theorem inv_exchNext_sealed_core {s s' : St} (hI : Inv s) {t n x : Nat}
    (ha : s.alive = true) (h : s.thr t = .gotPrev n x)
    (hfield : s.next x = .sealed)
    (hnum : s'.numNodes = s.numNodes)
    (hnext : s'.next = Function.update s.next x (.node n))
    (hlinked : s'.linked = Function.update s.linked x true)
    (hsealed : s'.sealedF = s.sealedF)
    (hdest : s'.destroyed = Function.update s.destroyed x true)
    (hsucc : s'.succG = s.succG)
    (htail : s'.tail = s.tail)
    (hthr : s'.thr = Function.update s.thr t (.execReady n))
    (hnthr : s'.nthr = s.nthr)
    (htlog : s'.tailLog = s.tailLog)
    (hilog : s'.invokedLog = s.invokedLog)
    (hdlog : s'.destroyLog = ⟨x, .sealed, .node n, .prodW⟩ :: s.destroyLog)
    (halive : s'.alive = s.alive) : Inv s' := by
  obtain ⟨g1, g2, g3⟩ := hI.gotInv t n x h
  have hsx : s.sealedF x = true := by
    cases hv : s.sealedF x with
    | true => rfl
    | false =>
      have hf := hI.fieldChar x g2
      unfold FieldOK at hf
      rw [g3, hv] at hf
      rw [hfield] at hf
      cases hf
  have hdx : s.destroyed x = false := by
    cases hv : s.destroyed x with
    | false => rfl
    | true =>
      rcases (hI.destroyedIff x).mp hv with ⟨l1, _⟩ | ⟨f1, _⟩
      · rw [g3] at l1
        cases l1
      · rw [ha] at f1
        cases f1
  have hhn : s.invokedLog.head? = some x ∧ ∀ u, ¬ IsExec (s.thr u) := by
    rcases hI.sealLinked x hsx with h1 | h2
    · rw [g3] at h1
      cases h1
    · exact h2
  obtain ⟨hhead, hnoex⟩ := hhn
  obtain ⟨l2, hdecomp⟩ := chain_decomp_at_head hI hhead g1
  have hn_nilog : n ∉ ilog s := by
    have hnd := hI.nodupC
    rw [hdecomp, List.nodup_append] at hnd
    exact fun hm => hnd.2.2 hm (List.mem_cons_self _ _)
  have hsn : s.sealedF n = false := by
    cases hv : s.sealedF n with
    | false => rfl
    | true => exact absurd (hI.sealedInIlog n hv) hn_nilog
  have hch : chain s' = chain s := by simp only [chain, htlog]
  have hil : ilog s' = ilog s := by simp only [ilog, hilog]
  refine { tailHead := ?_, nodupC := ?_, boundC := ?_, path := ?_,
           ilogPre := ?_, idleHigh := ?_, fresh := ?_, succNoneOut := ?_,
           createdInv := ?_, createdUniq := ?_, gotInv := ?_, gotUniq := ?_,
           linkedSucc := ?_, linkedNoPending := ?_, unlinkedPending := ?_,
           fieldChar := ?_, destroyedIff := ?_, dlogNd := ?_,
           destroyedDlog := ?_, dlogNodup := ?_, dlogWho := ?_, dlogFin := ?_,
           sealedInIlog := ?_, execUniq := ?_, readyCfg := ?_, busyCfg := ?_,
           ilogSealed := ?_, sealLinked := ?_, cfg := ?_, nodeComplete := ?_,
           deadDestroyed := ?_, deadIdle := ?_ }
  · rw [htlog, htail]; exact hI.tailHead
  · rw [hch]; exact hI.nodupC
  · rw [hch, hnum]; exact hI.boundC
  · rw [hch, hsucc]; exact hI.path
  · rw [hch, hil]; exact hI.ilogPre
  · -- idleHigh
    intro u hu
    rw [hnthr] at hu
    rw [hthr]
    by_cases hut : u = t
    · subst hut
      rw [hI.idleHigh u hu] at h
      cases h
    · rw [Function.update_noteq hut]
      exact hI.idleHigh u hu
  · -- fresh
    intro z hz
    rw [hnum] at hz
    have h0 := hI.fresh z hz
    have hzx : z ≠ x := fun he => absurd (hI.boundC _ (he ▸ g2)) (by omega)
    rw [hnext, hlinked, hsealed, hdest, hsucc,
      Function.update_noteq hzx, Function.update_noteq hzx,
      Function.update_noteq hzx]
    exact h0
  · -- succNoneOut
    intro z hz
    rw [hch] at hz
    rw [hsucc]
    exact hI.succNoneOut z hz
  · -- createdInv
    intro u m hu
    rw [hthr] at hu
    rcases update_thr_cases hu with ⟨heq, hv⟩ | ⟨hut, hu2⟩
    · cases hv
    · obtain ⟨m1, m2, m3, m4, m5, m6⟩ := hI.createdInv u m hu2
      have hmx : m ≠ x := fun he => m2 (he ▸ g2)
      rw [hnum, hch, hnext, hlinked, hsealed, hdest,
        Function.update_noteq hmx, Function.update_noteq hmx,
        Function.update_noteq hmx]
      exact ⟨m1, m2, m3, m4, m5, m6⟩
  · -- createdUniq
    intro u v m m2 hu hv huv
    rw [hthr] at hu hv
    rcases update_thr_cases hu with ⟨heq, hv1⟩ | ⟨hut, hu2⟩
    · cases hv1
    rcases update_thr_cases hv with ⟨heq, hv2⟩ | ⟨hvt, hv2⟩
    · cases hv2
    exact hI.createdUniq u v m m2 hu2 hv2 huv
  · -- gotInv
    intro u m z hu
    rw [hthr] at hu
    rcases update_thr_cases hu with ⟨heq, hv⟩ | ⟨hut, hu2⟩
    · cases hv
    · obtain ⟨q1, q2, q3⟩ := hI.gotInv u m z hu2
      have hzx : z ≠ x := by
        intro he
        subst he
        exact hut (hI.gotUniq u t m n z hu2 h)
      rw [hsucc, hch, hlinked, Function.update_noteq hzx]
      exact ⟨q1, q2, q3⟩
  · -- gotUniq
    intro u v m m2 z hu hv
    rw [hthr] at hu hv
    rcases update_thr_cases hu with ⟨heq, hv1⟩ | ⟨hut, hu2⟩
    · cases hv1
    rcases update_thr_cases hv with ⟨heq, hv2⟩ | ⟨hvt, hv2⟩
    · cases hv2
    exact hI.gotUniq u v m m2 z hu2 hv2
  · -- linkedSucc
    intro z hz
    rw [hlinked] at hz
    rw [hsucc]
    by_cases hzx : z = x
    · subst hzx
      rw [g1]
      simp
    · rw [Function.update_noteq hzx] at hz
      exact hI.linkedSucc z hz
  · -- linkedNoPending
    intro z hz u m
    rw [hlinked] at hz
    rw [hthr]
    by_cases hut : u = t
    · subst hut
      rw [Function.update_same]
      intro hc
      cases hc
    · rw [Function.update_noteq hut]
      by_cases hzx : z = x
      · intro hu
        rw [hzx] at hu
        exact hut (hI.gotUniq u t m n x hu h)
      · rw [Function.update_noteq hzx] at hz
        exact hI.linkedNoPending z hz u m
  · -- unlinkedPending
    intro z m hz hsz hlz
    rw [hch] at hz
    rw [hsucc] at hsz
    rw [hlinked] at hlz
    by_cases hzx : z = x
    · subst hzx
      rw [Function.update_same] at hlz
      cases hlz
    · rw [Function.update_noteq hzx] at hlz
      obtain ⟨u, hu⟩ := hI.unlinkedPending z m hz hsz hlz
      have hut : u ≠ t := by
        intro he
        rw [he, h] at hu
        injection hu with e1 e2
        exact hzx e2.symm
      exact ⟨u, by rw [hthr, Function.update_noteq hut]; exact hu⟩
  · -- fieldChar
    intro z hz
    rw [hch] at hz
    by_cases hzx : z = x
    · subst hzx
      unfold FieldOK
      rw [hlinked, hsealed, Function.update_same, hsx]
      trivial
    · refine fieldOK_congr (hI.fieldChar z hz)
        (by rw [hlinked, Function.update_noteq hzx])
        (by rw [hsealed]) (by rw [hnext, Function.update_noteq hzx])
        (by rw [hsucc])
  · -- destroyedIff
    intro z
    by_cases hzx : z = x
    · rw [hzx, hdest, hlinked, hsealed, halive, htail]
      rw [Function.update_same, Function.update_same, hsx, ha]
      simp
    · rw [hdest, hlinked, hsealed, halive, htail,
        Function.update_noteq hzx, Function.update_noteq hzx]
      exact hI.destroyedIff z
  · -- dlogNd
    intro e he
    rw [hdlog] at he
    rw [hdest]
    rcases List.mem_cons.mp he with he1 | he1
    · subst he1
      dsimp only
      rw [Function.update_same]
    · by_cases hex : e.nd = x
      · rw [hex, Function.update_same]
      · rw [Function.update_noteq hex]
        exact hI.dlogNd e he1
  · -- destroyedDlog
    intro z hz
    rw [hdest] at hz
    rw [hdlog]
    by_cases hzx : z = x
    · subst hzx
      exact ⟨⟨z, .sealed, .node n, .prodW⟩, List.mem_cons_self _ _, rfl⟩
    · rw [Function.update_noteq hzx] at hz
      obtain ⟨e, he, hnd⟩ := hI.destroyedDlog z hz
      exact ⟨e, List.mem_cons_of_mem _ he, hnd⟩
  · -- dlogNodup
    rw [hdlog, List.map_cons]
    rw [List.nodup_cons]
    refine ⟨?_, hI.dlogNodup⟩
    intro hmem
    rw [List.mem_map] at hmem
    obtain ⟨e, he, hnd⟩ := hmem
    have hd := hI.dlogNd e he
    dsimp only at hnd
    rw [hnd, hdx] at hd
    cases hd
  · -- dlogWho
    intro e he
    rw [hdlog] at he
    rcases List.mem_cons.mp he with he1 | he1
    · subst he1
      refine ⟨?_, ?_, ?_⟩
      · intro hc
        cases hc
      · intro _
        exact ⟨rfl, n, rfl⟩
      · intro hc
        cases hc
    · exact hI.dlogWho e he1
  · -- dlogFin
    rw [halive, ha, if_pos rfl, hdlog]
    have h2 := hI.dlogFin
    rw [if_pos ha] at h2
    intro e he
    rcases List.mem_cons.mp he with he1 | he1
    · subst he1
      intro hc
      cases hc
    · exact h2 e he1
  · -- sealedInIlog
    intro z hz
    rw [hsealed] at hz
    rw [hil]
    exact hI.sealedInIlog z hz
  · -- execUniq
    intro u v hu hv
    rw [hthr] at hu hv
    by_cases hut : u = t
    · by_cases hvt : v = t
      · rw [hut, hvt]
      · rw [Function.update_noteq hvt] at hv
        exact absurd hv (hnoex v)
    · rw [Function.update_noteq hut] at hu
      exact absurd hu (hnoex u)
  · -- readyCfg
    intro u w hu
    rw [hthr] at hu
    rcases update_thr_cases hu with ⟨heq, hv⟩ | ⟨hut, hu2⟩
    · injection hv with e
      rw [hch, hil, ← e]
      exact ⟨l2, hdecomp⟩
    · have hx2 : IsExec (s.thr u) := by
        rw [hu2]
        trivial
      exact absurd hx2 (hnoex u)
  · -- busyCfg
    intro u w hu
    rw [hthr] at hu
    rcases hu with hu | hu <;>
      rcases update_thr_cases hu with ⟨heq, hv⟩ | ⟨hut, hu2⟩
    · cases hv
    · exact absurd (by rw [hu2]; trivial : IsExec (s.thr u)) (hnoex u)
    · cases hv
    · exact absurd (by rw [hu2]; trivial : IsExec (s.thr u)) (hnoex u)
  · -- ilogSealed
    intro z hz
    rw [hil] at hz
    rcases hI.ilogSealed z hz with h1 | ⟨h1, u, h2⟩
    · rw [hsealed]
      exact Or.inl h1
    · rcases h2 with h2 | h2 <;>
        exact absurd (by rw [h2]; trivial : IsExec (s.thr u)) (hnoex u)
  · -- sealLinked
    intro z hz
    rw [hsealed] at hz
    by_cases hzx : z = x
    · rw [hzx, hlinked, Function.update_same]
      exact Or.inl rfl
    · rcases hI.sealLinked z hz with h1 | ⟨h1, h2⟩
      · rw [hlinked, Function.update_noteq hzx]
        exact Or.inl h1
      · rw [hhead] at h1
        exact absurd (Option.some.inj h1).symm hzx
  · -- cfg
    refine Or.inl ⟨t, ?_⟩
    rw [hthr, Function.update_same]
    trivial
  · -- nodeComplete
    intro z hz
    rw [hnum] at hz
    rcases hI.nodeComplete z hz with h1 | ⟨u, hu⟩
    · rw [hch]
      exact Or.inl h1
    · have hut : u ≠ t := by
        intro he
        rw [he, h] at hu
        cases hu
      refine Or.inr ⟨u, ?_⟩
      rw [hthr, Function.update_noteq hut]
      exact hu
  · -- deadDestroyed
    intro hd
    rw [halive, ha] at hd
    cases hd
  · -- deadIdle
    intro hd
    rw [halive, ha] at hd
    cases hd

theorem inv_exchNext {s : St} (hI : Inv s) (t : Nat) :
    Inv (stepF (.exchNext t) s) := by
  by_cases ha : s.alive = true
  case neg => rw [stepF_not_alive _ ha]; exact hI
  cases h : s.thr t with
  | gotPrev n x =>
    cases hfx : s.next x with
    | null =>
      simp only [stepF, ha, if_true, h, hfx]
      exact inv_exchNext_null_core hI ha h hfx rfl rfl rfl rfl rfl rfl rfl
        rfl rfl rfl rfl rfl ha.symm
    | sealed =>
      simp only [stepF, ha, if_true, h, hfx]
      exact inv_exchNext_sealed_core hI ha h hfx rfl rfl rfl rfl rfl rfl rfl
        rfl rfl rfl rfl rfl ha.symm
    | node y => simp only [stepF, ha, if_true, h, hfx]; exact hI
  | idle => simp only [stepF, ha, if_true, h]; exact hI
  | created n => simp only [stepF, ha, if_true, h]; exact hI
  | execReady w => simp only [stepF, ha, if_true, h]; exact hI
  | execInvoking w => simp only [stepF, ha, if_true, h]; exact hI
  | execSealing w => simp only [stepF, ha, if_true, h]; exact hI

theorem inv_beginInvoke_core {s s' : St} (hI : Inv s) {t w : Nat}
    (ha : s.alive = true) (h : s.thr t = .execReady w)
    (hnum : s'.numNodes = s.numNodes)
    (hnext : s'.next = s.next)
    (hlinked : s'.linked = s.linked)
    (hsealed : s'.sealedF = s.sealedF)
    (hdest : s'.destroyed = s.destroyed)
    (hsucc : s'.succG = s.succG)
    (htail : s'.tail = s.tail)
    (hthr : s'.thr = Function.update s.thr t (.execInvoking w))
    (hnthr : s'.nthr = s.nthr)
    (htlog : s'.tailLog = s.tailLog)
    (hilog : s'.invokedLog = w :: s.invokedLog)
    (hdlog : s'.destroyLog = s.destroyLog)
    (halive : s'.alive = s.alive) : Inv s' := by
  obtain ⟨rest, hr⟩ := hI.readyCfg t w h
  have hswf : s.sealedF w = false := ready_sealedF_false hI h
  have htex : IsExec (s.thr t) := by rw [h]; trivial
  have hch : chain s' = chain s := by simp only [chain, htlog]
  have hil : ilog s' = ilog s ++ [w] := by
    simp only [ilog, hilog, List.reverse_cons]
  have hhead : s'.invokedLog.head? = some w := by rw [hilog]; rfl
  have hkey : ∀ z, IsExec (Function.update s.thr t (.execInvoking w) z) →
      z = t := by
    intro z hz
    by_cases hzt : z = t
    · exact hzt
    · rw [Function.update_noteq hzt] at hz
      exact hI.execUniq z t hz htex
  refine { tailHead := ?_, nodupC := ?_, boundC := ?_, path := ?_,
           ilogPre := ?_, idleHigh := ?_, fresh := ?_, succNoneOut := ?_,
           createdInv := ?_, createdUniq := ?_, gotInv := ?_, gotUniq := ?_,
           linkedSucc := ?_, linkedNoPending := ?_, unlinkedPending := ?_,
           fieldChar := ?_, destroyedIff := ?_, dlogNd := ?_,
           destroyedDlog := ?_, dlogNodup := ?_, dlogWho := ?_, dlogFin := ?_,
           sealedInIlog := ?_, execUniq := ?_, readyCfg := ?_, busyCfg := ?_,
           ilogSealed := ?_, sealLinked := ?_, cfg := ?_, nodeComplete := ?_,
           deadDestroyed := ?_, deadIdle := ?_ }
  · rw [htlog, htail]; exact hI.tailHead
  · rw [hch]; exact hI.nodupC
  · rw [hch, hnum]; exact hI.boundC
  · rw [hch, hsucc]; exact hI.path
  · -- ilogPre
    rw [hil, hch]
    exact ⟨rest, by rw [hr]; simp⟩
  · -- idleHigh
    intro u hu
    rw [hnthr] at hu
    rw [hthr]
    by_cases hut : u = t
    · subst hut
      rw [hI.idleHigh u hu] at h
      cases h
    · rw [Function.update_noteq hut]
      exact hI.idleHigh u hu
  · -- fresh
    intro z hz
    rw [hnum] at hz
    rw [hnext, hlinked, hsealed, hdest, hsucc]
    exact hI.fresh z hz
  · -- succNoneOut
    intro z hz
    rw [hch] at hz
    rw [hsucc]
    exact hI.succNoneOut z hz
  · -- createdInv
    intro u m hu
    rw [hthr] at hu
    rcases update_thr_cases hu with ⟨heq, hv⟩ | ⟨hut, hu2⟩
    · cases hv
    · rw [hnum, hch, hnext, hlinked, hsealed, hdest]
      exact hI.createdInv u m hu2
  · -- createdUniq
    intro u v m m2 hu hv huv
    rw [hthr] at hu hv
    rcases update_thr_cases hu with ⟨heq, hv1⟩ | ⟨hut, hu2⟩
    · cases hv1
    rcases update_thr_cases hv with ⟨heq, hv2⟩ | ⟨hvt, hv2⟩
    · cases hv2
    exact hI.createdUniq u v m m2 hu2 hv2 huv
  · -- gotInv
    intro u m z hu
    rw [hthr] at hu
    rcases update_thr_cases hu with ⟨heq, hv⟩ | ⟨hut, hu2⟩
    · cases hv
    · rw [hsucc, hch, hlinked]
      exact hI.gotInv u m z hu2
  · -- gotUniq
    intro u v m m2 z hu hv
    rw [hthr] at hu hv
    rcases update_thr_cases hu with ⟨heq, hv1⟩ | ⟨hut, hu2⟩
    · cases hv1
    rcases update_thr_cases hv with ⟨heq, hv2⟩ | ⟨hvt, hv2⟩
    · cases hv2
    exact hI.gotUniq u v m m2 z hu2 hv2
  · -- linkedSucc
    intro z hz
    rw [hlinked] at hz
    rw [hsucc]
    exact hI.linkedSucc z hz
  · -- linkedNoPending
    intro z hz u m
    rw [hlinked] at hz
    rw [hthr]
    by_cases hut : u = t
    · subst hut
      rw [Function.update_same]
      intro hc
      cases hc
    · rw [Function.update_noteq hut]
      exact hI.linkedNoPending z hz u m
  · -- unlinkedPending
    intro z m hz hsz hlz
    rw [hch] at hz
    rw [hsucc] at hsz
    rw [hlinked] at hlz
    obtain ⟨u, hu⟩ := hI.unlinkedPending z m hz hsz hlz
    have hut : u ≠ t := by
      intro he
      rw [he, h] at hu
      cases hu
    exact ⟨u, by rw [hthr, Function.update_noteq hut]; exact hu⟩
  · -- fieldChar
    intro z hz
    rw [hch] at hz
    exact fieldOK_congr (hI.fieldChar z hz) (by rw [hlinked])
      (by rw [hsealed]) (by rw [hnext]) (by rw [hsucc])
  · -- destroyedIff
    intro z
    rw [hdest, hlinked, hsealed, halive, htail]
    exact hI.destroyedIff z
  · -- dlogNd
    intro e he
    rw [hdlog] at he
    rw [hdest]
    exact hI.dlogNd e he
  · -- destroyedDlog
    intro z hz
    rw [hdest] at hz
    rw [hdlog]
    exact hI.destroyedDlog z hz
  · rw [hdlog]; exact hI.dlogNodup
  · rw [hdlog]; exact hI.dlogWho
  · -- dlogFin
    rw [halive, ha, if_pos rfl, hdlog]
    have h2 := hI.dlogFin
    rw [if_pos ha] at h2
    exact h2
  · -- sealedInIlog
    intro z hz
    rw [hsealed] at hz
    rw [hil]
    exact List.mem_append_left _ (hI.sealedInIlog z hz)
  · -- execUniq
    intro u v hu hv
    rw [hthr] at hu hv
    rw [hkey u hu, hkey v hv]
  · -- readyCfg
    intro u w2 hu
    rw [hthr] at hu
    rcases update_thr_cases hu with ⟨heq, hv⟩ | ⟨hut, hu2⟩
    · cases hv
    · exact absurd (hI.execUniq u t (by rw [hu2]; trivial) htex) hut
  · -- busyCfg
    intro u w2 hu
    rw [hthr] at hu
    rcases hu with hu | hu <;>
      rcases update_thr_cases hu with ⟨heq, hv⟩ | ⟨hut, hu2⟩
    · injection hv with e
      rw [hilog, hsealed, ← e]
      exact ⟨rfl, hswf⟩
    · exact absurd (hI.execUniq u t (by rw [hu2]; trivial) htex) hut
    · cases hv
    · exact absurd (hI.execUniq u t (by rw [hu2]; trivial) htex) hut
  · -- ilogSealed
    intro z hz
    rw [hil] at hz
    rcases List.mem_append.mp hz with hz1 | hz1
    · rcases hI.ilogSealed z hz1 with h1 | ⟨h1, u, h2⟩
      · rw [hsealed]
        exact Or.inl h1
      · have hut : u = t := by
          rcases h2 with h2 | h2 <;>
            exact hI.execUniq u t (by rw [h2]; trivial) htex
        rw [hut, h] at h2
        rcases h2 with h2 | h2 <;> cases h2
    · rw [List.mem_singleton] at hz1
      subst hz1
      refine Or.inr ⟨hhead, t, Or.inl ?_⟩
      rw [hthr, Function.update_same]
  · -- sealLinked
    intro z hz
    rw [hsealed] at hz
    rcases hI.sealLinked z hz with h1 | ⟨h1, h2⟩
    · rw [hlinked]
      exact Or.inl h1
    · exact absurd htex (h2 t)
  · -- cfg
    refine Or.inl ⟨t, ?_⟩
    rw [hthr, Function.update_same]
    trivial
  · -- nodeComplete
    intro z hz
    rw [hnum] at hz
    rcases hI.nodeComplete z hz with h1 | ⟨u, hu⟩
    · rw [hch]
      exact Or.inl h1
    · have hut : u ≠ t := by
        intro he
        rw [he, h] at hu
        cases hu
      refine Or.inr ⟨u, ?_⟩
      rw [hthr, Function.update_noteq hut]
      exact hu
  · -- deadDestroyed
    intro hd
    rw [halive, ha] at hd
    cases hd
  · -- deadIdle
    intro hd
    rw [halive, ha] at hd
    cases hd

theorem inv_beginInvoke {s : St} (hI : Inv s) (t : Nat) :
    Inv (stepF (.beginInvoke t) s) := by
  by_cases ha : s.alive = true
  case neg => rw [stepF_not_alive _ ha]; exact hI
  cases h : s.thr t with
  | execReady w =>
    simp only [stepF, ha, if_true, h]
    exact inv_beginInvoke_core hI ha h rfl rfl rfl rfl rfl rfl rfl rfl rfl
      rfl rfl rfl ha.symm
  | idle => simp only [stepF, ha, if_true, h]; exact hI
  | created n => simp only [stepF, ha, if_true, h]; exact hI
  | gotPrev n x => simp only [stepF, ha, if_true, h]; exact hI
  | execInvoking w => simp only [stepF, ha, if_true, h]; exact hI
  | execSealing w => simp only [stepF, ha, if_true, h]; exact hI

theorem inv_endInvoke_core {s s' : St} (hI : Inv s) {t w : Nat}
    (ha : s.alive = true) (h : s.thr t = .execInvoking w)
    (hnum : s'.numNodes = s.numNodes)
    (hnext : s'.next = s.next)
    (hlinked : s'.linked = s.linked)
    (hsealed : s'.sealedF = s.sealedF)
    (hdest : s'.destroyed = s.destroyed)
    (hsucc : s'.succG = s.succG)
    (htail : s'.tail = s.tail)
    (hthr : s'.thr = Function.update s.thr t (.execSealing w))
    (hnthr : s'.nthr = s.nthr)
    (htlog : s'.tailLog = s.tailLog)
    (hilog : s'.invokedLog = s.invokedLog)
    (hdlog : s'.destroyLog = s.destroyLog)
    (halive : s'.alive = s.alive) : Inv s' := by
  obtain ⟨hhead, hswf⟩ := hI.busyCfg t w (Or.inl h)
  have htex : IsExec (s.thr t) := by rw [h]; trivial
  have hch : chain s' = chain s := by simp only [chain, htlog]
  have hil : ilog s' = ilog s := by simp only [ilog, hilog]
  have hkey : ∀ z, IsExec (Function.update s.thr t (.execSealing w) z) →
      z = t := by
    intro z hz
    by_cases hzt : z = t
    · exact hzt
    · rw [Function.update_noteq hzt] at hz
      exact hI.execUniq z t hz htex
  refine { tailHead := ?_, nodupC := ?_, boundC := ?_, path := ?_,
           ilogPre := ?_, idleHigh := ?_, fresh := ?_, succNoneOut := ?_,
           createdInv := ?_, createdUniq := ?_, gotInv := ?_, gotUniq := ?_,
           linkedSucc := ?_, linkedNoPending := ?_, unlinkedPending := ?_,
           fieldChar := ?_, destroyedIff := ?_, dlogNd := ?_,
           destroyedDlog := ?_, dlogNodup := ?_, dlogWho := ?_, dlogFin := ?_,
           sealedInIlog := ?_, execUniq := ?_, readyCfg := ?_, busyCfg := ?_,
           ilogSealed := ?_, sealLinked := ?_, cfg := ?_, nodeComplete := ?_,
           deadDestroyed := ?_, deadIdle := ?_ }
  · rw [htlog, htail]; exact hI.tailHead
  · rw [hch]; exact hI.nodupC
  · rw [hch, hnum]; exact hI.boundC
  · rw [hch, hsucc]; exact hI.path
  · rw [hch, hil]; exact hI.ilogPre
  · -- idleHigh
    intro u hu
    rw [hnthr] at hu
    rw [hthr]
    by_cases hut : u = t
    · subst hut
      rw [hI.idleHigh u hu] at h
      cases h
    · rw [Function.update_noteq hut]
      exact hI.idleHigh u hu
  · -- fresh
    intro z hz
    rw [hnum] at hz
    rw [hnext, hlinked, hsealed, hdest, hsucc]
    exact hI.fresh z hz
  · -- succNoneOut
    intro z hz
    rw [hch] at hz
    rw [hsucc]
    exact hI.succNoneOut z hz
  · -- createdInv
    intro u m hu
    rw [hthr] at hu
    rcases update_thr_cases hu with ⟨heq, hv⟩ | ⟨hut, hu2⟩
    · cases hv
    · rw [hnum, hch, hnext, hlinked, hsealed, hdest]
      exact hI.createdInv u m hu2
  · -- createdUniq
    intro u v m m2 hu hv huv
    rw [hthr] at hu hv
    rcases update_thr_cases hu with ⟨heq, hv1⟩ | ⟨hut, hu2⟩
    · cases hv1
    rcases update_thr_cases hv with ⟨heq, hv2⟩ | ⟨hvt, hv2⟩
    · cases hv2
    exact hI.createdUniq u v m m2 hu2 hv2 huv
  · -- gotInv
    intro u m z hu
    rw [hthr] at hu
    rcases update_thr_cases hu with ⟨heq, hv⟩ | ⟨hut, hu2⟩
    · cases hv
    · rw [hsucc, hch, hlinked]
      exact hI.gotInv u m z hu2
  · -- gotUniq
    intro u v m m2 z hu hv
    rw [hthr] at hu hv
    rcases update_thr_cases hu with ⟨heq, hv1⟩ | ⟨hut, hu2⟩
    · cases hv1
    rcases update_thr_cases hv with ⟨heq, hv2⟩ | ⟨hvt, hv2⟩
    · cases hv2
    exact hI.gotUniq u v m m2 z hu2 hv2
  · -- linkedSucc
    intro z hz
    rw [hlinked] at hz
    rw [hsucc]
    exact hI.linkedSucc z hz
  · -- linkedNoPending
    intro z hz u m
    rw [hlinked] at hz
    rw [hthr]
    by_cases hut : u = t
    · subst hut
      rw [Function.update_same]
      intro hc
      cases hc
    · rw [Function.update_noteq hut]
      exact hI.linkedNoPending z hz u m
  · -- unlinkedPending
    intro z m hz hsz hlz
    rw [hch] at hz
    rw [hsucc] at hsz
    rw [hlinked] at hlz
    obtain ⟨u, hu⟩ := hI.unlinkedPending z m hz hsz hlz
    have hut : u ≠ t := by
      intro he
      rw [he, h] at hu
      cases hu
    exact ⟨u, by rw [hthr, Function.update_noteq hut]; exact hu⟩
  · -- fieldChar
    intro z hz
    rw [hch] at hz
    exact fieldOK_congr (hI.fieldChar z hz) (by rw [hlinked])
      (by rw [hsealed]) (by rw [hnext]) (by rw [hsucc])
  · -- destroyedIff
    intro z
    rw [hdest, hlinked, hsealed, halive, htail]
    exact hI.destroyedIff z
  · -- dlogNd
    intro e he
    rw [hdlog] at he
    rw [hdest]
    exact hI.dlogNd e he
  · -- destroyedDlog
    intro z hz
    rw [hdest] at hz
    rw [hdlog]
    exact hI.destroyedDlog z hz
  · rw [hdlog]; exact hI.dlogNodup
  · rw [hdlog]; exact hI.dlogWho
  · -- dlogFin
    rw [halive, ha, if_pos rfl, hdlog]
    have h2 := hI.dlogFin
    rw [if_pos ha] at h2
    exact h2
  · -- sealedInIlog
    intro z hz
    rw [hsealed] at hz
    rw [hil]
    exact hI.sealedInIlog z hz
  · -- execUniq
    intro u v hu hv
    rw [hthr] at hu hv
    rw [hkey u hu, hkey v hv]
  · -- readyCfg
    intro u w2 hu
    rw [hthr] at hu
    rcases update_thr_cases hu with ⟨heq, hv⟩ | ⟨hut, hu2⟩
    · cases hv
    · exact absurd (hI.execUniq u t (by rw [hu2]; trivial) htex) hut
  · -- busyCfg
    intro u w2 hu
    rw [hthr] at hu
    rcases hu with hu | hu <;>
      rcases update_thr_cases hu with ⟨heq, hv⟩ | ⟨hut, hu2⟩
    · cases hv
    · exact absurd (hI.execUniq u t (by rw [hu2]; trivial) htex) hut
    · injection hv with e
      rw [hilog, hsealed, ← e]
      exact ⟨hhead, hswf⟩
    · exact absurd (hI.execUniq u t (by rw [hu2]; trivial) htex) hut
  · -- ilogSealed
    intro z hz
    rw [hil] at hz
    rcases hI.ilogSealed z hz with h1 | ⟨h1, u, h2⟩
    · rw [hsealed]
      exact Or.inl h1
    · have hut : u = t := by
        rcases h2 with h2 | h2 <;>
          exact hI.execUniq u t (by rw [h2]; trivial) htex
      rw [hut, h] at h2
      rcases h2 with h2 | h2
      · injection h2 with e
        refine Or.inr ⟨by rw [hilog]; exact h1, t, Or.inr ?_⟩
        rw [hthr, Function.update_same, e]
      · cases h2
  · -- sealLinked
    intro z hz
    rw [hsealed] at hz
    rcases hI.sealLinked z hz with h1 | ⟨h1, h2⟩
    · rw [hlinked]
      exact Or.inl h1
    · exact absurd htex (h2 t)
  · -- cfg
    refine Or.inl ⟨t, ?_⟩
    rw [hthr, Function.update_same]
    trivial
  · -- nodeComplete
    intro z hz
    rw [hnum] at hz
    rcases hI.nodeComplete z hz with h1 | ⟨u, hu⟩
    · rw [hch]
      exact Or.inl h1
    · have hut : u ≠ t := by
        intro he
        rw [he, h] at hu
        cases hu
      refine Or.inr ⟨u, ?_⟩
      rw [hthr, Function.update_noteq hut]
      exact hu
  · -- deadDestroyed
    intro hd
    rw [halive, ha] at hd
    cases hd
  · -- deadIdle
    intro hd
    rw [halive, ha] at hd
    cases hd

theorem inv_endInvoke {s : St} (hI : Inv s) (t : Nat) :
    Inv (stepF (.endInvoke t) s) := by
  by_cases ha : s.alive = true
  case neg => rw [stepF_not_alive _ ha]; exact hI
  cases h : s.thr t with
  | execInvoking w =>
    simp only [stepF, ha, if_true, h]
    exact inv_endInvoke_core hI ha h rfl rfl rfl rfl rfl rfl rfl rfl rfl
      rfl rfl rfl ha.symm
  | idle => simp only [stepF, ha, if_true, h]; exact hI
  | created n => simp only [stepF, ha, if_true, h]; exact hI
  | gotPrev n x => simp only [stepF, ha, if_true, h]; exact hI
  | execReady w => simp only [stepF, ha, if_true, h]; exact hI
  | execSealing w => simp only [stepF, ha, if_true, h]; exact hI

theorem inv_seal_null_core {s s' : St} (hI : Inv s) {t w : Nat}
    (ha : s.alive = true) (h : s.thr t = .execSealing w)
    (hfield : s.next w = .null)
    (hnum : s'.numNodes = s.numNodes)
    (hnext : s'.next = Function.update s.next w .sealed)
    (hlinked : s'.linked = s.linked)
    (hsealed : s'.sealedF = Function.update s.sealedF w true)
    (hdest : s'.destroyed = s.destroyed)
    (hsucc : s'.succG = s.succG)
    (htail : s'.tail = s.tail)
    (hthr : s'.thr = Function.update s.thr t .idle)
    (hnthr : s'.nthr = s.nthr)
    (htlog : s'.tailLog = s.tailLog)
    (hilog : s'.invokedLog = s.invokedLog)
    (hdlog : s'.destroyLog = s.destroyLog)
    (halive : s'.alive = s.alive) : Inv s' := by
  obtain ⟨hhead, hswf⟩ := hI.busyCfg t w (Or.inr h)
  have htex : IsExec (s.thr t) := by rw [h]; trivial
  have hwc : w ∈ chain s := mem_ilog_mem_chain hI (head_mem_ilog hhead)
  have hlw : s.linked w = false := by
    cases hv : s.linked w with
    | false => rfl
    | true =>
      have hf := hI.fieldChar w hwc
      unfold FieldOK at hf
      rw [hv, hswf] at hf
      obtain ⟨y, hy1, hy2⟩ := hf
      rw [hfield] at hy2
      cases hy2
  have hch : chain s' = chain s := by simp only [chain, htlog]
  have hil : ilog s' = ilog s := by simp only [ilog, hilog]
  refine { tailHead := ?_, nodupC := ?_, boundC := ?_, path := ?_,
           ilogPre := ?_, idleHigh := ?_, fresh := ?_, succNoneOut := ?_,
           createdInv := ?_, createdUniq := ?_, gotInv := ?_, gotUniq := ?_,
           linkedSucc := ?_, linkedNoPending := ?_, unlinkedPending := ?_,
           fieldChar := ?_, destroyedIff := ?_, dlogNd := ?_,
           destroyedDlog := ?_, dlogNodup := ?_, dlogWho := ?_, dlogFin := ?_,
           sealedInIlog := ?_, execUniq := ?_, readyCfg := ?_, busyCfg := ?_,
           ilogSealed := ?_, sealLinked := ?_, cfg := ?_, nodeComplete := ?_,
           deadDestroyed := ?_, deadIdle := ?_ }
  · rw [htlog, htail]; exact hI.tailHead
  · rw [hch]; exact hI.nodupC
  · rw [hch, hnum]; exact hI.boundC
  · rw [hch, hsucc]; exact hI.path
  · rw [hch, hil]; exact hI.ilogPre
  · -- idleHigh
    intro u hu
    rw [hnthr] at hu
    rw [hthr]
    by_cases hut : u = t
    · subst hut
      rw [Function.update_same]
    · rw [Function.update_noteq hut]
      exact hI.idleHigh u hu
  · -- fresh
    intro z hz
    rw [hnum] at hz
    have h0 := hI.fresh z hz
    have hzw : z ≠ w := fun he => absurd (hI.boundC _ (he ▸ hwc)) (by omega)
    rw [hnext, hlinked, hsealed, hdest, hsucc,
      Function.update_noteq hzw, Function.update_noteq hzw]
    exact h0
  · -- succNoneOut
    intro z hz
    rw [hch] at hz
    rw [hsucc]
    exact hI.succNoneOut z hz
  · -- createdInv
    intro u m hu
    rw [hthr] at hu
    rcases update_thr_cases hu with ⟨heq, hv⟩ | ⟨hut, hu2⟩
    · cases hv
    · obtain ⟨m1, m2, m3, m4, m5, m6⟩ := hI.createdInv u m hu2
      have hmw : m ≠ w := fun he => m2 (he ▸ hwc)
      rw [hnum, hch, hnext, hlinked, hsealed, hdest,
        Function.update_noteq hmw, Function.update_noteq hmw]
      exact ⟨m1, m2, m3, m4, m5, m6⟩
  · -- createdUniq
    intro u v m m2 hu hv huv
    rw [hthr] at hu hv
    rcases update_thr_cases hu with ⟨heq, hv1⟩ | ⟨hut, hu2⟩
    · cases hv1
    rcases update_thr_cases hv with ⟨heq, hv2⟩ | ⟨hvt, hv2⟩
    · cases hv2
    exact hI.createdUniq u v m m2 hu2 hv2 huv
  · -- gotInv
    intro u m z hu
    rw [hthr] at hu
    rcases update_thr_cases hu with ⟨heq, hv⟩ | ⟨hut, hu2⟩
    · cases hv
    · rw [hsucc, hch, hlinked]
      exact hI.gotInv u m z hu2
  · -- gotUniq
    intro u v m m2 z hu hv
    rw [hthr] at hu hv
    rcases update_thr_cases hu with ⟨heq, hv1⟩ | ⟨hut, hu2⟩
    · cases hv1
    rcases update_thr_cases hv with ⟨heq, hv2⟩ | ⟨hvt, hv2⟩
    · cases hv2
    exact hI.gotUniq u v m m2 z hu2 hv2
  · -- linkedSucc
    intro z hz
    rw [hlinked] at hz
    rw [hsucc]
    exact hI.linkedSucc z hz
  · -- linkedNoPending
    intro z hz u m
    rw [hlinked] at hz
    rw [hthr]
    by_cases hut : u = t
    · subst hut
      rw [Function.update_same]
      intro hc
      cases hc
    · rw [Function.update_noteq hut]
      exact hI.linkedNoPending z hz u m
  · -- unlinkedPending
    intro z m hz hsz hlz
    rw [hch] at hz
    rw [hsucc] at hsz
    rw [hlinked] at hlz
    obtain ⟨u, hu⟩ := hI.unlinkedPending z m hz hsz hlz
    have hut : u ≠ t := by
      intro he
      rw [he, h] at hu
      cases hu
    exact ⟨u, by rw [hthr, Function.update_noteq hut]; exact hu⟩
  · -- fieldChar
    intro z hz
    rw [hch] at hz
    by_cases hzw : z = w
    · subst hzw
      unfold FieldOK
      rw [hlinked, hsealed, Function.update_same, hlw]
      rw [hnext, Function.update_same]
    · refine fieldOK_congr (hI.fieldChar z hz)
        (by rw [hlinked]) (by rw [hsealed, Function.update_noteq hzw])
        (by rw [hnext, Function.update_noteq hzw]) (by rw [hsucc])
  · -- destroyedIff
    intro z
    by_cases hzw : z = w
    · rw [hzw, hdest, hlinked, hsealed, halive, htail]
      rw [Function.update_same, hlw, ha]
      constructor
      · intro hd
        rcases (hI.destroyedIff w).mp hd with ⟨l1, _⟩ | ⟨f1, _⟩
        · rw [hlw] at l1
          cases l1
        · rw [ha] at f1
          cases f1
      · intro hr
        rcases hr with ⟨l1, _⟩ | ⟨f1, _⟩
        · cases l1
        · cases f1
    · rw [hdest, hlinked, hsealed, halive, htail,
        Function.update_noteq hzw]
      exact hI.destroyedIff z
  · -- dlogNd
    intro e he
    rw [hdlog] at he
    rw [hdest]
    exact hI.dlogNd e he
  · -- destroyedDlog
    intro z hz
    rw [hdest] at hz
    rw [hdlog]
    exact hI.destroyedDlog z hz
  · rw [hdlog]; exact hI.dlogNodup
  · rw [hdlog]; exact hI.dlogWho
  · -- dlogFin
    rw [halive, ha, if_pos rfl, hdlog]
    have h2 := hI.dlogFin
    rw [if_pos ha] at h2
    exact h2
  · -- sealedInIlog
    intro z hz
    rw [hsealed] at hz
    rw [hil]
    by_cases hzw : z = w
    · subst hzw
      exact head_mem_ilog hhead
    · rw [Function.update_noteq hzw] at hz
      exact hI.sealedInIlog z hz
  · -- execUniq
    intro u v hu hv
    rw [hthr] at hu hv
    by_cases hut : u = t
    · subst hut
      rw [Function.update_same] at hu
      exact hu.elim
    · rw [Function.update_noteq hut] at hu
      exact absurd (hI.execUniq u t hu htex) hut
  · -- readyCfg
    intro u w2 hu
    rw [hthr] at hu
    rcases update_thr_cases hu with ⟨heq, hv⟩ | ⟨hut, hu2⟩
    · cases hv
    · exact absurd (hI.execUniq u t (by rw [hu2]; trivial) htex) hut
  · -- busyCfg
    intro u w2 hu
    rw [hthr] at hu
    rcases hu with hu | hu <;>
      rcases update_thr_cases hu with ⟨heq, hv⟩ | ⟨hut, hu2⟩
    · cases hv
    · exact absurd (hI.execUniq u t (by rw [hu2]; trivial) htex) hut
    · cases hv
    · exact absurd (hI.execUniq u t (by rw [hu2]; trivial) htex) hut
  · -- ilogSealed
    intro z hz
    rw [hil] at hz
    rcases hI.ilogSealed z hz with h1 | ⟨h1, u, h2⟩
    · rw [hsealed]
      by_cases hzw : z = w
      · subst hzw
        rw [Function.update_same]
        exact Or.inl rfl
      · rw [Function.update_noteq hzw]
        exact Or.inl h1
    · have hut : u = t := by
        rcases h2 with h2 | h2 <;>
          exact hI.execUniq u t (by rw [h2]; trivial) htex
      rw [hut, h] at h2
      rcases h2 with h2 | h2
      · cases h2
      · injection h2 with e
        rw [hsealed, ← e, Function.update_same]
        exact Or.inl rfl
  · -- sealLinked
    intro z hz
    rw [hsealed] at hz
    by_cases hzw : z = w
    · subst hzw
      refine Or.inr ⟨by rw [hilog]; exact hhead, fun u => ?_⟩
      rw [hthr]
      by_cases hut : u = t
      · subst hut
        rw [Function.update_same]
        exact fun hc => hc
      · rw [Function.update_noteq hut]
        intro hc
        exact hut (hI.execUniq u t hc htex)
    · rw [Function.update_noteq hzw] at hz
      rcases hI.sealLinked z hz with h1 | ⟨h1, h2⟩
      · rw [hlinked]
        exact Or.inl h1
      · exact absurd htex (h2 t)
  · -- cfg
    refine Or.inr ⟨w, by rw [hilog]; exact hhead, ?_, ?_⟩
    · rw [hsealed, Function.update_same]
    · rw [hlinked]
      exact hlw
  · -- nodeComplete
    intro z hz
    rw [hnum] at hz
    rcases hI.nodeComplete z hz with h1 | ⟨u, hu⟩
    · rw [hch]
      exact Or.inl h1
    · have hut : u ≠ t := by
        intro he
        rw [he, h] at hu
        cases hu
      refine Or.inr ⟨u, ?_⟩
      rw [hthr, Function.update_noteq hut]
      exact hu
  · -- deadDestroyed
    intro hd
    rw [halive, ha] at hd
    cases hd
  · -- deadIdle
    intro hd
    rw [halive, ha] at hd
    cases hd

theorem inv_seal_node_core {s s' : St} (hI : Inv s) {t w y : Nat}
    (ha : s.alive = true) (h : s.thr t = .execSealing w)
    (hfield : s.next w = .node y)
    (hnum : s'.numNodes = s.numNodes)
    (hnext : s'.next = Function.update s.next w .sealed)
    (hlinked : s'.linked = s.linked)
    (hsealed : s'.sealedF = Function.update s.sealedF w true)
    (hdest : s'.destroyed = Function.update s.destroyed w true)
    (hsucc : s'.succG = s.succG)
    (htail : s'.tail = s.tail)
    (hthr : s'.thr = Function.update s.thr t (.execReady y))
    (hnthr : s'.nthr = s.nthr)
    (htlog : s'.tailLog = s.tailLog)
    (hilog : s'.invokedLog = s.invokedLog)
    (hdlog : s'.destroyLog = ⟨w, .node y, .sealed, .execW⟩ :: s.destroyLog)
    (halive : s'.alive = s.alive) : Inv s' := by
  obtain ⟨hhead, hswf⟩ := hI.busyCfg t w (Or.inr h)
  have htex : IsExec (s.thr t) := by rw [h]; trivial
  have hwc : w ∈ chain s := mem_ilog_mem_chain hI (head_mem_ilog hhead)
  have hlw : s.linked w = true := by
    cases hv : s.linked w with
    | true => rfl
    | false =>
      have hf := hI.fieldChar w hwc
      unfold FieldOK at hf
      rw [hv, hswf] at hf
      rw [hfield] at hf
      cases hf
  have hsuccw : s.succG w = some y := by
    have hf := hI.fieldChar w hwc
    unfold FieldOK at hf
    rw [hlw, hswf] at hf
    obtain ⟨y', h1, h2⟩ := hf
    have he := hfield.symm.trans h2
    injection he with e
    rw [h1, ← e]
  have hdw : s.destroyed w = false := by
    cases hv : s.destroyed w with
    | false => rfl
    | true =>
      rcases (hI.destroyedIff w).mp hv with ⟨_, s1⟩ | ⟨f1, _⟩
      · rw [hswf] at s1
        cases s1
      · rw [ha] at f1
        cases f1
  obtain ⟨l2, hdecomp⟩ := chain_decomp_at_head hI hhead hsuccw
  have hch : chain s' = chain s := by simp only [chain, htlog]
  have hil : ilog s' = ilog s := by simp only [ilog, hilog]
  have hkey : ∀ z, IsExec (Function.update s.thr t (.execReady y) z) →
      z = t := by
    intro z hz
    by_cases hzt : z = t
    · exact hzt
    · rw [Function.update_noteq hzt] at hz
      exact hI.execUniq z t hz htex
  refine { tailHead := ?_, nodupC := ?_, boundC := ?_, path := ?_,
           ilogPre := ?_, idleHigh := ?_, fresh := ?_, succNoneOut := ?_,
           createdInv := ?_, createdUniq := ?_, gotInv := ?_, gotUniq := ?_,
           linkedSucc := ?_, linkedNoPending := ?_, unlinkedPending := ?_,
           fieldChar := ?_, destroyedIff := ?_, dlogNd := ?_,
           destroyedDlog := ?_, dlogNodup := ?_, dlogWho := ?_, dlogFin := ?_,
           sealedInIlog := ?_, execUniq := ?_, readyCfg := ?_, busyCfg := ?_,
           ilogSealed := ?_, sealLinked := ?_, cfg := ?_, nodeComplete := ?_,
           deadDestroyed := ?_, deadIdle := ?_ }
  · rw [htlog, htail]; exact hI.tailHead
  · rw [hch]; exact hI.nodupC
  · rw [hch, hnum]; exact hI.boundC
  · rw [hch, hsucc]; exact hI.path
  · rw [hch, hil]; exact hI.ilogPre
  · -- idleHigh
    intro u hu
    rw [hnthr] at hu
    rw [hthr]
    by_cases hut : u = t
    · subst hut
      rw [hI.idleHigh u hu] at h
      cases h
    · rw [Function.update_noteq hut]
      exact hI.idleHigh u hu
  · -- fresh
    intro z hz
    rw [hnum] at hz
    have h0 := hI.fresh z hz
    have hzw : z ≠ w := fun he => absurd (hI.boundC _ (he ▸ hwc)) (by omega)
    rw [hnext, hlinked, hsealed, hdest, hsucc,
      Function.update_noteq hzw, Function.update_noteq hzw,
      Function.update_noteq hzw]
    exact h0
  · -- succNoneOut
    intro z hz
    rw [hch] at hz
    rw [hsucc]
    exact hI.succNoneOut z hz
  · -- createdInv
    intro u m hu
    rw [hthr] at hu
    rcases update_thr_cases hu with ⟨heq, hv⟩ | ⟨hut, hu2⟩
    · cases hv
    · obtain ⟨m1, m2, m3, m4, m5, m6⟩ := hI.createdInv u m hu2
      have hmw : m ≠ w := fun he => m2 (he ▸ hwc)
      rw [hnum, hch, hnext, hlinked, hsealed, hdest,
        Function.update_noteq hmw, Function.update_noteq hmw,
        Function.update_noteq hmw]
      exact ⟨m1, m2, m3, m4, m5, m6⟩
  · -- createdUniq
    intro u v m m2 hu hv huv
    rw [hthr] at hu hv
    rcases update_thr_cases hu with ⟨heq, hv1⟩ | ⟨hut, hu2⟩
    · cases hv1
    rcases update_thr_cases hv with ⟨heq, hv2⟩ | ⟨hvt, hv2⟩
    · cases hv2
    exact hI.createdUniq u v m m2 hu2 hv2 huv
  · -- gotInv
    intro u m z hu
    rw [hthr] at hu
    rcases update_thr_cases hu with ⟨heq, hv⟩ | ⟨hut, hu2⟩
    · cases hv
    · rw [hsucc, hch, hlinked]
      exact hI.gotInv u m z hu2
  · -- gotUniq
    intro u v m m2 z hu hv
    rw [hthr] at hu hv
    rcases update_thr_cases hu with ⟨heq, hv1⟩ | ⟨hut, hu2⟩
    · cases hv1
    rcases update_thr_cases hv with ⟨heq, hv2⟩ | ⟨hvt, hv2⟩
    · cases hv2
    exact hI.gotUniq u v m m2 z hu2 hv2
  · -- linkedSucc
    intro z hz
    rw [hlinked] at hz
    rw [hsucc]
    exact hI.linkedSucc z hz
  · -- linkedNoPending
    intro z hz u m
    rw [hlinked] at hz
    rw [hthr]
    by_cases hut : u = t
    · subst hut
      rw [Function.update_same]
      intro hc
      cases hc
    · rw [Function.update_noteq hut]
      exact hI.linkedNoPending z hz u m
  · -- unlinkedPending
    intro z m hz hsz hlz
    rw [hch] at hz
    rw [hsucc] at hsz
    rw [hlinked] at hlz
    obtain ⟨u, hu⟩ := hI.unlinkedPending z m hz hsz hlz
    have hut : u ≠ t := by
      intro he
      rw [he, h] at hu
      cases hu
    exact ⟨u, by rw [hthr, Function.update_noteq hut]; exact hu⟩
  · -- fieldChar
    intro z hz
    rw [hch] at hz
    by_cases hzw : z = w
    · subst hzw
      unfold FieldOK
      rw [hlinked, hsealed, Function.update_same, hlw]
      trivial
    · refine fieldOK_congr (hI.fieldChar z hz)
        (by rw [hlinked]) (by rw [hsealed, Function.update_noteq hzw])
        (by rw [hnext, Function.update_noteq hzw]) (by rw [hsucc])
  · -- destroyedIff
    intro z
    by_cases hzw : z = w
    · rw [hzw, hdest, hlinked, hsealed, halive, htail]
      rw [Function.update_same, Function.update_same, hlw, ha]
      simp
    · rw [hdest, hlinked, hsealed, halive, htail,
        Function.update_noteq hzw, Function.update_noteq hzw]
      exact hI.destroyedIff z
  · -- dlogNd
    intro e he
    rw [hdlog] at he
    rw [hdest]
    rcases List.mem_cons.mp he with he1 | he1
    · subst he1
      dsimp only
      rw [Function.update_same]
    · by_cases hew : e.nd = w
      · rw [hew, Function.update_same]
      · rw [Function.update_noteq hew]
        exact hI.dlogNd e he1
  · -- destroyedDlog
    intro z hz
    rw [hdest] at hz
    rw [hdlog]
    by_cases hzw : z = w
    · subst hzw
      exact ⟨⟨z, .node y, .sealed, .execW⟩, List.mem_cons_self _ _, rfl⟩
    · rw [Function.update_noteq hzw] at hz
      obtain ⟨e, he, hnd⟩ := hI.destroyedDlog z hz
      exact ⟨e, List.mem_cons_of_mem _ he, hnd⟩
  · -- dlogNodup
    rw [hdlog, List.map_cons, List.nodup_cons]
    refine ⟨?_, hI.dlogNodup⟩
    intro hmem
    rw [List.mem_map] at hmem
    obtain ⟨e, he, hnd⟩ := hmem
    have hd := hI.dlogNd e he
    dsimp only at hnd
    rw [hnd, hdw] at hd
    cases hd
  · -- dlogWho
    intro e he
    rw [hdlog] at he
    rcases List.mem_cons.mp he with he1 | he1
    · subst he1
      refine ⟨?_, ?_, ?_⟩
      · intro _
        exact ⟨⟨y, rfl⟩, rfl⟩
      · intro hc
        cases hc
      · intro hc
        cases hc
    · exact hI.dlogWho e he1
  · -- dlogFin
    rw [halive, ha, if_pos rfl, hdlog]
    have h2 := hI.dlogFin
    rw [if_pos ha] at h2
    intro e he
    rcases List.mem_cons.mp he with he1 | he1
    · subst he1
      intro hc
      cases hc
    · exact h2 e he1
  · -- sealedInIlog
    intro z hz
    rw [hsealed] at hz
    rw [hil]
    by_cases hzw : z = w
    · subst hzw
      exact head_mem_ilog hhead
    · rw [Function.update_noteq hzw] at hz
      exact hI.sealedInIlog z hz
  · -- execUniq
    intro u v hu hv
    rw [hthr] at hu hv
    rw [hkey u hu, hkey v hv]
  · -- readyCfg
    intro u w2 hu
    rw [hthr] at hu
    rcases update_thr_cases hu with ⟨heq, hv⟩ | ⟨hut, hu2⟩
    · injection hv with e
      rw [hch, hil, ← e]
      exact ⟨l2, hdecomp⟩
    · exact absurd (hI.execUniq u t (by rw [hu2]; trivial) htex) hut
  · -- busyCfg
    intro u w2 hu
    rw [hthr] at hu
    rcases hu with hu | hu <;>
      rcases update_thr_cases hu with ⟨heq, hv⟩ | ⟨hut, hu2⟩
    · cases hv
    · exact absurd (hI.execUniq u t (by rw [hu2]; trivial) htex) hut
    · cases hv
    · exact absurd (hI.execUniq u t (by rw [hu2]; trivial) htex) hut
  · -- ilogSealed
    intro z hz
    rw [hil] at hz
    rcases hI.ilogSealed z hz with h1 | ⟨h1, u, h2⟩
    · rw [hsealed]
      by_cases hzw : z = w
      · subst hzw
        rw [Function.update_same]
        exact Or.inl rfl
      · rw [Function.update_noteq hzw]
        exact Or.inl h1
    · have hut : u = t := by
        rcases h2 with h2 | h2 <;>
          exact hI.execUniq u t (by rw [h2]; trivial) htex
      rw [hut, h] at h2
      rcases h2 with h2 | h2
      · cases h2
      · injection h2 with e
        rw [hsealed, ← e, Function.update_same]
        exact Or.inl rfl
  · -- sealLinked
    intro z hz
    rw [hsealed] at hz
    by_cases hzw : z = w
    · rw [hzw, hlinked]
      exact Or.inl hlw
    · rw [Function.update_noteq hzw] at hz
      rcases hI.sealLinked z hz with h1 | ⟨h1, h2⟩
      · rw [hlinked]
        exact Or.inl h1
      · exact absurd htex (h2 t)
  · -- cfg
    refine Or.inl ⟨t, ?_⟩
    rw [hthr, Function.update_same]
    trivial
  · -- nodeComplete
    intro z hz
    rw [hnum] at hz
    rcases hI.nodeComplete z hz with h1 | ⟨u, hu⟩
    · rw [hch]
      exact Or.inl h1
    · have hut : u ≠ t := by
        intro he
        rw [he, h] at hu
        cases hu
      refine Or.inr ⟨u, ?_⟩
      rw [hthr, Function.update_noteq hut]
      exact hu
  · -- deadDestroyed
    intro hd
    rw [halive, ha] at hd
    cases hd
  · -- deadIdle
    intro hd
    rw [halive, ha] at hd
    cases hd

theorem inv_seal {s : St} (hI : Inv s) (t : Nat) :
    Inv (stepF (.seal t) s) := by
  by_cases ha : s.alive = true
  case neg => rw [stepF_not_alive _ ha]; exact hI
  cases h : s.thr t with
  | execSealing w =>
    cases hfx : s.next w with
    | null =>
      simp only [stepF, ha, if_true, h, hfx]
      exact inv_seal_null_core hI ha h hfx rfl rfl rfl rfl rfl rfl rfl rfl
        rfl rfl rfl rfl ha.symm
    | node y =>
      simp only [stepF, ha, if_true, h, hfx]
      exact inv_seal_node_core hI ha h hfx rfl rfl rfl rfl rfl rfl rfl rfl
        rfl rfl rfl rfl ha.symm
    | sealed => simp only [stepF, ha, if_true, h, hfx]; exact hI
  | idle => simp only [stepF, ha, if_true, h]; exact hI
  | created n => simp only [stepF, ha, if_true, h]; exact hI
  | gotPrev n x => simp only [stepF, ha, if_true, h]; exact hI
  | execReady w => simp only [stepF, ha, if_true, h]; exact hI
  | execInvoking w => simp only [stepF, ha, if_true, h]; exact hI

theorem getLast?_append_right (l1 l2 : List Nat) (h2 : l2 ≠ []) :
    (l1 ++ l2).getLast? = l2.getLast? := by
  induction l1 with
  | nil => rfl
  | cons a l ih =>
    cases hx : l ++ l2 with
    | nil => exact absurd (List.append_eq_nil.mp hx).2 h2
    | cons b bs =>
      rw [List.cons_append, hx, List.getLast?_cons_cons, ← hx, ih]

theorem inv_dtor_core {s s' : St} (hI : Inv s)
    (ha : s.alive = true) (hidle : ∀ u, s.thr u = .idle)
    (hnum : s'.numNodes = s.numNodes)
    (hnext : s'.next = s.next)
    (hlinked : s'.linked = s.linked)
    (hsealed : s'.sealedF = s.sealedF)
    (hdest : s'.destroyed = Function.update s.destroyed s.tail true)
    (hsucc : s'.succG = s.succG)
    (htail : s'.tail = s.tail)
    (hthr : s'.thr = s.thr)
    (hnthr : s'.nthr = s.nthr)
    (htlog : s'.tailLog = s.tailLog)
    (hilog : s'.invokedLog = s.invokedLog)
    (hdlog : s'.destroyLog =
      ⟨s.tail, s.next s.tail, s.next s.tail, .finW⟩ :: s.destroyLog)
    (halive : s'.alive = false) : Inv s' := by
  have hnoex : ∀ u, ¬ IsExec (s.thr u) := by
    intro u hc
    rw [hidle u] at hc
    exact hc
  have hcfg : ∃ w, s.invokedLog.head? = some w ∧ s.sealedF w = true ∧
      s.linked w = false := by
    rcases hI.cfg with ⟨u, hu⟩ | hw
    · exact absurd hu (hnoex u)
    · exact hw
  obtain ⟨w, hhead, hsw, hlw⟩ := hcfg
  have hwi : w ∈ ilog s := head_mem_ilog hhead
  have hwc : w ∈ chain s := mem_ilog_mem_chain hI hwi
  have hsuccw : s.succG w = none := by
    cases hsv : s.succG w with
    | none => rfl
    | some m =>
      obtain ⟨u, hu⟩ := hI.unlinkedPending w m hwc hsv hlw
      rw [hidle u] at hu
      cases hu
  have hlastw : (chain s).getLast? = some w :=
    pathOK_none_last hI.path hwc hsuccw
  have hwt : w = s.tail :=
    Option.some.inj (hlastw.symm.trans (chain_getLast hI))
  have hCI : chain s = ilog s := by
    obtain ⟨suf, hsuf⟩ := hI.ilogPre
    cases suf with
    | nil => rw [← hsuf]; simp
    | cons c cs =>
      exfalso
      have hl2 : (c :: cs).getLast? = some w := by
        rw [← getLast?_append_right (ilog s) (c :: cs) (by simp), hsuf]
        exact hlastw
      have hwcs : w ∈ c :: cs := mem_of_getLast?_eq hl2
      have hnd := hI.nodupC
      rw [← hsuf, List.nodup_append] at hnd
      exact hnd.2.2 hwi hwcs
  have hallSealed : ∀ z ∈ chain s, s.sealedF z = true := by
    intro z hz
    rw [hCI] at hz
    rcases hI.ilogSealed z hz with h1 | ⟨_, u, h2⟩
    · exact h1
    · rcases h2 with h2 | h2 <;> (rw [hidle u] at h2; cases h2)
  have hallDest : ∀ z ∈ chain s, z ≠ s.tail → s.destroyed z = true := by
    intro z hz hzt
    have hsz : ∃ m, s.succG z = some m := by
      cases hsv : s.succG z with
      | some m => exact ⟨m, rfl⟩
      | none =>
        have hlz := pathOK_none_last hI.path hz hsv
        exact absurd (Option.some.inj (hlz.symm.trans (chain_getLast hI)))
          hzt
    obtain ⟨m, hsm⟩ := hsz
    have hlz : s.linked z = true := by
      cases hlv : s.linked z with
      | true => rfl
      | false =>
        obtain ⟨u, hu⟩ := hI.unlinkedPending z m hz hsm hlv
        rw [hidle u] at hu
        cases hu
    exact (hI.destroyedIff z).mpr (Or.inl ⟨hlz, hallSealed z hz⟩)
  have htailsealed : s.sealedF s.tail = true := hwt ▸ hsw
  have htaillink : s.linked s.tail = false := hwt ▸ hlw
  have htailfield : s.next s.tail = .sealed := by
    have hf := hI.fieldChar s.tail (tail_mem_chain hI)
    unfold FieldOK at hf
    rw [htaillink, htailsealed] at hf
    exact hf
  have hdtail : s.destroyed s.tail = false := by
    cases hv : s.destroyed s.tail with
    | false => rfl
    | true =>
      rcases (hI.destroyedIff s.tail).mp hv with ⟨l1, _⟩ | ⟨f1, _⟩
      · rw [htaillink] at l1
        cases l1
      · rw [ha] at f1
        cases f1
  have htailnum : s.tail < s.numNodes := hI.boundC _ (tail_mem_chain hI)
  have hch : chain s' = chain s := by simp only [chain, htlog]
  have hil : ilog s' = ilog s := by simp only [ilog, hilog]
  refine { tailHead := ?_, nodupC := ?_, boundC := ?_, path := ?_,
           ilogPre := ?_, idleHigh := ?_, fresh := ?_, succNoneOut := ?_,
           createdInv := ?_, createdUniq := ?_, gotInv := ?_, gotUniq := ?_,
           linkedSucc := ?_, linkedNoPending := ?_, unlinkedPending := ?_,
           fieldChar := ?_, destroyedIff := ?_, dlogNd := ?_,
           destroyedDlog := ?_, dlogNodup := ?_, dlogWho := ?_, dlogFin := ?_,
           sealedInIlog := ?_, execUniq := ?_, readyCfg := ?_, busyCfg := ?_,
           ilogSealed := ?_, sealLinked := ?_, cfg := ?_, nodeComplete := ?_,
           deadDestroyed := ?_, deadIdle := ?_ }
  · rw [htlog, htail]; exact hI.tailHead
  · rw [hch]; exact hI.nodupC
  · rw [hch, hnum]; exact hI.boundC
  · rw [hch, hsucc]; exact hI.path
  · rw [hch, hil]; exact hI.ilogPre
  · -- idleHigh
    intro u _
    rw [hthr]
    exact hidle u
  · -- fresh
    intro z hz
    rw [hnum] at hz
    have hzt : z ≠ s.tail := by omega
    rw [hnext, hlinked, hsealed, hdest, hsucc, Function.update_noteq hzt]
    exact hI.fresh z hz
  · -- succNoneOut
    intro z hz
    rw [hch] at hz
    rw [hsucc]
    exact hI.succNoneOut z hz
  · -- createdInv
    intro u m hu
    rw [hthr, hidle u] at hu
    cases hu
  · -- createdUniq
    intro u v m m2 hu hv huv
    rw [hthr, hidle u] at hu
    cases hu
  · -- gotInv
    intro u m z hu
    rw [hthr, hidle u] at hu
    cases hu
  · -- gotUniq
    intro u v m m2 z hu hv
    rw [hthr, hidle u] at hu
    cases hu
  · -- linkedSucc
    intro z hz
    rw [hlinked] at hz
    rw [hsucc]
    exact hI.linkedSucc z hz
  · -- linkedNoPending
    intro z hz u m
    rw [hthr, hidle u]
    intro hc
    cases hc
  · -- unlinkedPending
    intro z m hz hsz hlz
    rw [hch] at hz
    rw [hsucc] at hsz
    rw [hlinked] at hlz
    obtain ⟨u, hu⟩ := hI.unlinkedPending z m hz hsz hlz
    rw [hidle u] at hu
    cases hu
  · -- fieldChar
    intro z hz
    rw [hch] at hz
    exact fieldOK_congr (hI.fieldChar z hz) (by rw [hlinked])
      (by rw [hsealed]) (by rw [hnext]) (by rw [hsucc])
  · -- destroyedIff
    intro z
    rw [hdest, hlinked, hsealed, halive, htail]
    by_cases hzt : z = s.tail
    · rw [hzt, Function.update_same]
      exact ⟨fun _ => Or.inr ⟨rfl, rfl⟩, fun _ => rfl⟩
    · rw [Function.update_noteq hzt]
      constructor
      · intro hd
        rcases (hI.destroyedIff z).mp hd with h1 | ⟨f1, _⟩
        · exact Or.inl h1
        · rw [ha] at f1
          cases f1
      · intro hr
        rcases hr with h1 | ⟨_, e⟩
        · exact (hI.destroyedIff z).mpr (Or.inl h1)
        · exact absurd e hzt
  · -- dlogNd
    intro e he
    rw [hdlog] at he
    rw [hdest]
    rcases List.mem_cons.mp he with he1 | he1
    · subst he1
      dsimp only
      rw [Function.update_same]
    · by_cases het : e.nd = s.tail
      · rw [het, Function.update_same]
      · rw [Function.update_noteq het]
        exact hI.dlogNd e he1
  · -- destroyedDlog
    intro z hz
    rw [hdest] at hz
    rw [hdlog]
    by_cases hzt : z = s.tail
    · subst hzt
      exact ⟨⟨s.tail, s.next s.tail, s.next s.tail, .finW⟩,
        List.mem_cons_self _ _, rfl⟩
    · rw [Function.update_noteq hzt] at hz
      obtain ⟨e, he, hnd⟩ := hI.destroyedDlog z hz
      exact ⟨e, List.mem_cons_of_mem _ he, hnd⟩
  · -- dlogNodup
    rw [hdlog, List.map_cons, List.nodup_cons]
    refine ⟨?_, hI.dlogNodup⟩
    intro hmem
    rw [List.mem_map] at hmem
    obtain ⟨e, he, hnd⟩ := hmem
    have hd := hI.dlogNd e he
    dsimp only at hnd
    rw [hnd, hdtail] at hd
    cases hd
  · -- dlogWho
    intro e he
    rw [hdlog] at he
    rcases List.mem_cons.mp he with he1 | he1
    · subst he1
      refine ⟨?_, ?_, ?_⟩
      · intro hc
        cases hc
      · intro hc
        cases hc
      · intro _
        dsimp only
        rw [htailfield]
        exact ⟨rfl, rfl⟩
    · exact hI.dlogWho e he1
  · -- dlogFin
    rw [halive]
    rw [if_neg (by simp)]
    refine ⟨⟨s.tail, s.next s.tail, s.next s.tail, .finW⟩, s.destroyLog,
      by rw [hdlog], rfl, by rw [htail], ?_⟩
    have h2 := hI.dlogFin
    rw [if_pos ha] at h2
    exact h2
  · -- sealedInIlog
    intro z hz
    rw [hsealed] at hz
    rw [hil]
    exact hI.sealedInIlog z hz
  · -- execUniq
    intro u v hu hv
    rw [hthr, hidle u] at hu
    exact hu.elim
  · -- readyCfg
    intro u w2 hu
    rw [hthr, hidle u] at hu
    cases hu
  · -- busyCfg
    intro u w2 hu
    rcases hu with hu | hu <;> (rw [hthr, hidle u] at hu; cases hu)
  · -- ilogSealed
    intro z hz
    rw [hil] at hz
    rw [hsealed]
    exact Or.inl (hallSealed z (by rw [hCI]; exact hz))
  · -- sealLinked
    intro z hz
    rw [hsealed] at hz
    rcases hI.sealLinked z hz with h1 | ⟨h1, h2⟩
    · rw [hlinked]
      exact Or.inl h1
    · refine Or.inr ⟨by rw [hilog]; exact h1, fun u => ?_⟩
      rw [hthr, hidle u]
      intro hc
      exact hc
  · -- cfg
    exact Or.inr ⟨w, by rw [hilog]; exact hhead, by rw [hsealed]; exact hsw,
      by rw [hlinked]; exact hlw⟩
  · -- nodeComplete
    intro z hz
    rw [hnum] at hz
    rcases hI.nodeComplete z hz with h1 | ⟨u, hu⟩
    · rw [hch]
      exact Or.inl h1
    · rw [hidle u] at hu
      cases hu
  · -- deadDestroyed
    intro _ z hz
    rw [hnum] at hz
    rw [hdest]
    by_cases hzt : z = s.tail
    · rw [hzt, Function.update_same]
    · rw [Function.update_noteq hzt]
      have hzc : z ∈ chain s := by
        rcases hI.nodeComplete z hz with h1 | ⟨u, hu⟩
        · exact h1
        · rw [hidle u] at hu
          cases hu
      exact hallDest z hzc hzt
  · -- deadIdle
    intro _ u
    rw [hthr]
    exact hidle u

theorem inv_dtor {s : St} (hI : Inv s) : Inv (stepF .dtor s) := by
  by_cases ha : s.alive = true
  case neg => rw [stepF_not_alive _ ha]; exact hI
  by_cases hg :
      ((List.range s.nthr).all fun u => decide (s.thr u = TState.idle)) = true
  case neg =>
    have hg2 :
        ((List.range s.nthr).all fun u => decide (s.thr u = TState.idle))
          = false := by
      revert hg
      cases (List.range s.nthr).all fun u => decide (s.thr u = TState.idle)
      · intro _; rfl
      · intro hc; exact absurd rfl hc
    simp only [stepF, ha, if_true, hg2]
    exact hI
  have hidle : ∀ u, s.thr u = .idle := by
    intro u
    by_cases hun : u < s.nthr
    · exact of_decide_eq_true
        (List.all_eq_true.mp hg u (List.mem_range.mpr hun))
    · exact hI.idleHigh u (by omega)
  simp only [stepF, ha, if_true, hg, if_pos]
  exact inv_dtor_core hI ha hidle rfl rfl rfl rfl rfl rfl rfl rfl rfl rfl
    rfl rfl rfl

theorem inv_preInit (T : Nat) : Inv (preInit T) := by
  refine { tailHead := rfl, nodupC := by simp [preInit, chain],
           boundC := ?_, path := ?_, ilogPre := ?_, idleHigh := ?_,
           fresh := ?_, succNoneOut := ?_, createdInv := ?_,
           createdUniq := ?_, gotInv := ?_, gotUniq := ?_, linkedSucc := ?_,
           linkedNoPending := ?_, unlinkedPending := ?_, fieldChar := ?_,
           destroyedIff := ?_, dlogNd := ?_, destroyedDlog := ?_,
           dlogNodup := ?_, dlogWho := ?_, dlogFin := ?_,
           sealedInIlog := ?_, execUniq := ?_, readyCfg := ?_, busyCfg := ?_,
           ilogSealed := ?_, sealLinked := ?_, cfg := ?_, nodeComplete := ?_,
           deadDestroyed := ?_, deadIdle := ?_ }
  · -- boundC
    intro x hx
    have hx2 : x ∈ [0] := by simpa [preInit, chain] using hx
    rw [List.mem_singleton] at hx2
    subst hx2
    exact Nat.zero_lt_one
  · -- path
    exact PathOK.single 0 rfl
  · -- ilogPre
    exact ⟨[0], rfl⟩
  · -- idleHigh
    intro u hu
    dsimp only [preInit]
    have hu0 : u ≠ 0 := by
      intro he
      subst he
      exact absurd hu (by dsimp only [preInit]; omega)
    rw [Function.update_noteq hu0]
  · -- fresh
    intro x _
    exact ⟨rfl, rfl, rfl, rfl, rfl⟩
  · -- succNoneOut
    intro x _
    rfl
  · -- createdInv
    intro u n hu
    dsimp only [preInit] at hu
    by_cases hu0 : u = 0
    · subst hu0
      rw [Function.update_same] at hu
      cases hu
    · rw [Function.update_noteq hu0] at hu
      cases hu
  · -- createdUniq
    intro u v n m hu hv huv
    dsimp only [preInit] at hu
    by_cases hu0 : u = 0
    · subst hu0
      rw [Function.update_same] at hu
      cases hu
    · rw [Function.update_noteq hu0] at hu
      cases hu
  · -- gotInv
    intro u n x hu
    dsimp only [preInit] at hu
    by_cases hu0 : u = 0
    · subst hu0
      rw [Function.update_same] at hu
      cases hu
    · rw [Function.update_noteq hu0] at hu
      cases hu
  · -- gotUniq
    intro u v n m x hu hv
    dsimp only [preInit] at hu
    by_cases hu0 : u = 0
    · subst hu0
      rw [Function.update_same] at hu
      cases hu
    · rw [Function.update_noteq hu0] at hu
      cases hu
  · -- linkedSucc
    intro x hx
    cases hx
  · -- linkedNoPending
    intro x hx u n
    cases hx
  · -- unlinkedPending
    intro x n hx hsx hlx
    cases hsx
  · -- fieldChar
    intro x hx
    have hx2 : x ∈ [0] := by simpa [preInit, chain] using hx
    rw [List.mem_singleton] at hx2
    subst hx2
    unfold FieldOK
    exact rfl
  · -- destroyedIff
    intro x
    constructor
    · intro hd
      cases hd
    · intro hr
      rcases hr with ⟨l1, _⟩ | ⟨f1, _⟩
      · cases l1
      · cases f1
  · -- dlogNd
    intro e he
    cases he
  · -- destroyedDlog
    intro x hx
    cases hx
  · -- dlogNodup
    exact List.nodup_nil
  · -- dlogWho
    intro e he
    cases he
  · -- dlogFin
    rw [if_pos (show (preInit T).alive = true from rfl)]
    intro e he
    cases he
  · -- sealedInIlog
    intro x hx
    cases hx
  · -- execUniq
    intro u v hu hv
    dsimp only [preInit] at hu hv
    have key : ∀ z, IsExec (Function.update (fun _ => TState.idle) 0
        (TState.execReady 0) z) → z = 0 := by
      intro z hz
      by_cases hz0 : z = 0
      · exact hz0
      · rw [Function.update_noteq hz0] at hz
        exact hz.elim
    rw [key u hu, key v hv]
  · -- readyCfg
    intro u w hu
    dsimp only [preInit] at hu
    by_cases hu0 : u = 0
    · subst hu0
      rw [Function.update_same] at hu
      injection hu with e
      refine ⟨[], ?_⟩
      simp [chain, ilog, preInit, ← e]
    · rw [Function.update_noteq hu0] at hu
      cases hu
  · -- busyCfg
    intro u w hu
    dsimp only [preInit] at hu
    rcases hu with hu | hu <;>
      by_cases hu0 : u = 0
    · subst hu0
      rw [Function.update_same] at hu
      cases hu
    · rw [Function.update_noteq hu0] at hu
      cases hu
    · subst hu0
      rw [Function.update_same] at hu
      cases hu
    · rw [Function.update_noteq hu0] at hu
      cases hu
  · -- ilogSealed
    intro x hx
    cases hx
  · -- sealLinked
    intro x hx
    cases hx
  · -- cfg
    refine Or.inl ⟨0, ?_⟩
    dsimp only [preInit]
    rw [Function.update_same]
    trivial
  · -- nodeComplete
    intro x hx
    have hx2 : x = 0 := by
      dsimp only [preInit] at hx
      omega
    subst hx2
    exact Or.inl (by simp [preInit, chain])
  · -- deadDestroyed
    intro hd
    cases hd
  · -- deadIdle
    intro hd
    cases hd

theorem inv_step {s : St} (hI : Inv s) (a : Act) : Inv (stepF a s) := by
  cases a
  next t => exact inv_start hI t
  next t => exact inv_exchTail hI t
  next t => exact inv_exchNext hI t
  next t => exact inv_beginInvoke hI t
  next t => exact inv_endInvoke hI t
  next t => exact inv_seal hI t
  next => exact inv_dtor hI

theorem inv_initSt (T : Nat) : Inv (initSt T) :=
  inv_seal (inv_endInvoke (inv_beginInvoke (inv_preInit T) 0) 0) 0

theorem inv_reachable {T : Nat} {s : St} (h : Reachable T s) : Inv s := by
  unfold Reachable at h
  induction h with
  | refl => exact inv_initSt T
  | tail hsteps hstep ih =>
    obtain ⟨a, _, hs⟩ := hstep
    rw [← hs]
    exact inv_step ih a

/-! ## A concrete single-threaded execution used as witness material

A chain constructed by one thread (`initSt 0`), followed by one `Run`
call: `Work::New` (`start`), `tail_.exchange` (`exchTail`), the
`ContinueWith` exchange, which observes `Sealed()` on the sentinel and
reclaims it (`exchNext`), the `RunAll` invocation of the new node's
action, the seal exchange that observes null, and finally the
`~ActionChain` destructor. -/

def traceS1 : St := stepF (.start 0) (initSt 0)

def traceS2 : St := stepF (.exchTail 0) traceS1

def traceS3 : St := stepF (.exchNext 0) traceS2

def traceS4 : St := stepF (.beginInvoke 0) traceS3

def traceS5 : St := stepF (.endInvoke 0) traceS4

def traceS6 : St := stepF (.seal 0) traceS5

def traceS7 : St := stepF .dtor traceS6

theorem reach_traceS1 : Reachable 0 traceS1 :=
  Relation.ReflTransGen.tail Relation.ReflTransGen.refl
    ⟨.start 0, by decide, rfl⟩

theorem reach_traceS2 : Reachable 0 traceS2 :=
  Relation.ReflTransGen.tail reach_traceS1 ⟨.exchTail 0, by decide, rfl⟩

theorem reach_traceS3 : Reachable 0 traceS3 :=
  Relation.ReflTransGen.tail reach_traceS2 ⟨.exchNext 0, by decide, rfl⟩

theorem reach_traceS4 : Reachable 0 traceS4 :=
  Relation.ReflTransGen.tail reach_traceS3 ⟨.beginInvoke 0, by decide, rfl⟩

theorem reach_traceS5 : Reachable 0 traceS5 :=
  Relation.ReflTransGen.tail reach_traceS4 ⟨.endInvoke 0, by decide, rfl⟩

theorem reach_traceS6 : Reachable 0 traceS6 :=
  Relation.ReflTransGen.tail reach_traceS5 ⟨.seal 0, by decide, rfl⟩

theorem reach_traceS7 : Reachable 0 traceS7 :=
  Relation.ReflTransGen.tail reach_traceS6 ⟨.dtor, by decide, rfl⟩

/-! ## The claims -/

/-- C1: for every chain and every sequence of `Run` calls, actions
execute in exactly the order in which their nodes were installed by
`tail_.exchange`: in every reachable state the chronological invocation
log `ilog` is a prefix of the chronological tail-exchange log `chain`,
so whenever the `tail_.exchange` of call R1 precedes that of call R2,
the action of R1 is invoked before the action of R2. -/
theorem run_actions_follow_tail_exchange_order (T : Nat) (s : St)
    (h : Reachable T s) : ilog s <+: chain s :=
  (inv_reachable h).ilogPre

theorem run_actions_follow_tail_exchange_order_witness :
    ilog traceS4 <+: chain traceS4 :=
  run_actions_follow_tail_exchange_order 0 traceS4 reach_traceS4

/-- C2: once the chain is destroyed, every node the protocol created has
been destroyed exactly once: each node id below `numNodes` appears in
the `Destroy` log, the logged node ids are pairwise distinct, each
`Destroy` call was made either by the executor of `RunAll` (which had
observed a successor in its seal exchange), or by a producer in
`ContinueWith` (which had observed `Sealed()`), or by the `~ActionChain`
destructor, and the destructor call is unique and destroyed exactly the
final tail node. -/
theorem nodes_destroyed_exactly_once (T : Nat) (s : St) (h : Reachable T s)
    (hdead : s.alive = false) :
    (∀ x, x < s.numNodes → ∃ e ∈ s.destroyLog, e.nd = x) ∧
    (s.destroyLog.map DEntry.nd).Nodup ∧
    (∀ e ∈ s.destroyLog,
      (e.who = .execW → (∃ y, e.obs = .node y) ∧ e.fld = .sealed) ∧
      (e.who = .prodW → e.obs = .sealed ∧ ∃ y, e.fld = .node y) ∧
      (e.who = .finW → e.obs = .sealed ∧ e.fld = .sealed)) ∧
    (∃ hd tl, s.destroyLog = hd :: tl ∧ hd.who = .finW ∧ hd.nd = s.tail ∧
      ∀ e ∈ tl, e.who ≠ .finW) := by
  have hI := inv_reachable h
  refine ⟨fun x hx => hI.destroyedDlog x (hI.deadDestroyed hdead x hx),
    hI.dlogNodup, hI.dlogWho, ?_⟩
  have h2 := hI.dlogFin
  rw [hdead] at h2
  rw [if_neg (by simp)] at h2
  exact h2

theorem nodes_destroyed_exactly_once_witness :
    traceS7.alive = false ∧
    ((∀ x, x < traceS7.numNodes → ∃ e ∈ traceS7.destroyLog, e.nd = x) ∧
     (traceS7.destroyLog.map DEntry.nd).Nodup ∧
     (∀ e ∈ traceS7.destroyLog,
       (e.who = .execW → (∃ y, e.obs = .node y) ∧ e.fld = .sealed) ∧
       (e.who = .prodW → e.obs = .sealed ∧ ∃ y, e.fld = .node y) ∧
       (e.who = .finW → e.obs = .sealed ∧ e.fld = .sealed)) ∧
     (∃ hd tl, traceS7.destroyLog = hd :: tl ∧ hd.who = .finW ∧
       hd.nd = traceS7.tail ∧ ∀ e ∈ tl, e.who ≠ .finW)) :=
  ⟨by decide, nodes_destroyed_exactly_once 0 traceS7 reach_traceS7 (by decide)⟩

/-- C3: at most one action on a chain is executing at any instant: in
every reachable state, if two threads are both inside `w->invoke_(w)`
(the `execInvoking` control state), they are the same thread, so the
invocation of one action never overlaps the invocation of another. -/
theorem at_most_one_action_executing (T : Nat) (s : St) (h : Reachable T s)
    (t u w v : Nat) (ht : s.thr t = .execInvoking w)
    (hu : s.thr u = .execInvoking v) : t = u :=
  (inv_reachable h).execUniq t u (by rw [ht]; trivial) (by rw [hu]; trivial)

theorem at_most_one_action_executing_witness :
    traceS4.thr 0 = .execInvoking 1 ∧ (0 : Nat) = 0 :=
  ⟨by decide, at_most_one_action_executing 0 traceS4 reach_traceS4 0 0 1 1
    (by decide) (by decide)⟩

/-- C4: `ContinueWith` performs a single exchange on the predecessor's
`next_` and has exactly two outcomes.  In every reachable state, a
producer about to run `ContinueWith` on predecessor `x` finds `next_`
equal to null or `Sealed()` (never a third value); if null, the producer
returns to `Run` with a null reclaim value, destroying nothing; if
`Sealed()`, it destroys the predecessor in place, its slab becomes the
reclaim value handed back to `Run` (the `.prodW` log entry), and the
producer proceeds to drain the chain from its own node via `RunAll`
(control state `execReady n`). -/
theorem contWith_two_outcomes (T : Nat) (s : St) (h : Reachable T s)
    (t n x : Nat) (ht : s.thr t = .gotPrev n x) :
    (s.next x = .null ∨ s.next x = .sealed) ∧
    (s.next x = .null →
      (stepF (.exchNext t) s).thr t = .idle ∧
      (stepF (.exchNext t) s).destroyLog = s.destroyLog ∧
      (stepF (.exchNext t) s).destroyed x = s.destroyed x ∧
      (stepF (.exchNext t) s).next x = .node n) ∧
    (s.next x = .sealed →
      (stepF (.exchNext t) s).destroyed x = true ∧
      (stepF (.exchNext t) s).destroyLog =
        ⟨x, .sealed, .node n, .prodW⟩ :: s.destroyLog ∧
      (stepF (.exchNext t) s).thr t = .execReady n) := by
  have hI := inv_reachable h
  have ha : s.alive = true := by
    cases hv : s.alive with
    | true => rfl
    | false =>
      rw [hI.deadIdle hv t] at ht
      cases ht
  obtain ⟨g1, g2, g3⟩ := hI.gotInv t n x ht
  refine ⟨?_, ?_, ?_⟩
  · have hf := hI.fieldChar x g2
    unfold FieldOK at hf
    rw [g3] at hf
    cases hv : s.sealedF x with
    | false =>
      rw [hv] at hf
      exact Or.inl hf
    | true =>
      rw [hv] at hf
      exact Or.inr hf
  · intro hnull
    simp only [stepF, ha, if_true, ht, hnull, Function.update_same]
    refine ⟨?_, ?_, ?_, ?_⟩ <;> trivial
  · intro hsealed
    simp only [stepF, ha, if_true, ht, hsealed, Function.update_same]
    refine ⟨?_, ?_, ?_⟩ <;> trivial

theorem contWith_two_outcomes_witness :
    traceS2.thr 0 = .gotPrev 1 0 ∧
    (traceS2.next 0 = .null ∨ traceS2.next 0 = .sealed) ∧
    (traceS2.next 0 = .sealed →
      (stepF (.exchNext 0) traceS2).destroyed 0 = true ∧
      (stepF (.exchNext 0) traceS2).destroyLog =
        ⟨0, .sealed, .node 1, .prodW⟩ :: traceS2.destroyLog ∧
      (stepF (.exchNext 0) traceS2).thr 0 = .execReady 1) := by
  have h := contWith_two_outcomes 0 traceS2 reach_traceS2 0 1 0 (by decide)
  exact ⟨by decide, h.1, h.2.2⟩

/-- C5 counterexample: the claim says that after the `ActionChain`
constructor returns, the sentinel's `next` field is null.  It is not:
the constructor body `Work::RunAll(tail_.load())` always exchanges
`Sealed()` into `next_` after invoking the action, so the freshly
constructed chain has `next_ == Sealed()` on its sentinel. -/
theorem ctor_sentinel_next_not_null : (initSt 0).next 0 ≠ NextV.null := by
  decide

/-- C5 (amended): after the constructor returns, `tail_` points to the
sentinel node 0, whose no-op action has already been invoked (it is the
sole entry of the invocation log) and whose `next` field is SEALED. -/
theorem ctor_sentinel_state (T : Nat) :
    (initSt T).tail = 0 ∧ (initSt T).invokedLog = [0] ∧
    (initSt T).next 0 = NextV.sealed :=
  ⟨rfl, rfl, rfl⟩

/-- C6 counterexample: the claim says a node's `next` field never moves
backwards from SEALED.  It does: in the reachable state `traceS2` the
sentinel's `next` is SEALED, the first producer's `ContinueWith`
exchange is enabled, and executing it writes the successor pointer
(node 1) over SEALED. -/
theorem next_backward_write_cex :
    Reachable 0 traceS2 ∧ traceS2.next 0 = NextV.sealed ∧
    enabled (.exchNext 0) traceS2 = true ∧
    (stepF (.exchNext 0) traceS2).next 0 = NextV.node 1 :=
  ⟨reach_traceS2, by decide, by decide, by decide⟩

/-- C6 (amended): every write to a node's `next` field in a reachable
state either moves it forward along `NULL → successor → SEALED` /
`NULL → SEALED`, or is the final write of a reclaiming producer, which
overwrites SEALED with the successor pointer while destroying the node
in the same `ContinueWith` call.  The field never returns to null. -/
theorem nextField_transitions (T : Nat) (s : St) (h : Reachable T s)
    (a : Act) (x : Nat) (hchg : (stepF a s).next x ≠ s.next x) :
    ((stepF a s).next x ≠ .null) ∧
    ((s.next x = .null ∧ ((∃ y, (stepF a s).next x = .node y) ∨
        (stepF a s).next x = .sealed)) ∨
     ((∃ y, s.next x = .node y) ∧ (stepF a s).next x = .sealed) ∨
     (s.next x = .sealed ∧ (∃ y, (stepF a s).next x = .node y) ∧
        (stepF a s).destroyed x = true ∧ s.destroyed x = false)) := by
  have hI := inv_reachable h
  by_cases ha : s.alive = true
  case neg =>
    rw [stepF_not_alive a ha] at hchg
    exact absurd rfl hchg
  cases a
  next t =>
    exfalso
    by_cases hg : t < s.nthr ∧ s.thr t = .idle
    · simp only [stepF, ha, if_true, if_pos hg] at hchg
      by_cases hx : x = s.numNodes
      · rw [hx, Function.update_same, (hI.fresh s.numNodes (le_refl _)).1]
          at hchg
        exact hchg rfl
      · rw [Function.update_noteq hx] at hchg
        exact hchg rfl
    · simp only [stepF, ha, if_true, if_neg hg] at hchg
      exact hchg rfl
  next t =>
    exfalso
    cases hth : s.thr t <;> simp only [stepF, ha, if_true, hth] at hchg <;>
      exact hchg rfl
  next t =>
    cases hth : s.thr t with
    | gotPrev n z =>
      obtain ⟨g1, g2, g3⟩ := hI.gotInv t n z hth
      cases hfz : s.next z with
      | null =>
        simp only [stepF, ha, if_true, hth, hfz] at hchg ⊢
        by_cases hxz : x = z
        · subst hxz
          rw [Function.update_same]
          refine ⟨(by intro hc; cases hc), Or.inl ⟨hfz, Or.inl ⟨n, rfl⟩⟩⟩
        · rw [Function.update_noteq hxz] at hchg
          exact absurd rfl hchg
      | sealed =>
        have hdz : s.destroyed z = false := by
          cases hv : s.destroyed z with
          | false => rfl
          | true =>
            rcases (hI.destroyedIff z).mp hv with ⟨l1, _⟩ | ⟨f1, _⟩
            · rw [g3] at l1
              cases l1
            · rw [ha] at f1
              cases f1
        simp only [stepF, ha, if_true, hth, hfz] at hchg ⊢
        by_cases hxz : x = z
        · subst hxz
          rw [Function.update_same]
          refine ⟨(by intro hc; cases hc),
            Or.inr (Or.inr ⟨hfz, ⟨n, rfl⟩, (by rw [Function.update_same]),
              hdz⟩)⟩
        · rw [Function.update_noteq hxz] at hchg
          exact absurd rfl hchg
      | node y =>
        exfalso
        simp only [stepF, ha, if_true, hth, hfz] at hchg
        exact hchg rfl
    | idle =>
      exfalso
      simp only [stepF, ha, if_true, hth] at hchg
      exact hchg rfl
    | created n =>
      exfalso
      simp only [stepF, ha, if_true, hth] at hchg
      exact hchg rfl
    | execReady w =>
      exfalso
      simp only [stepF, ha, if_true, hth] at hchg
      exact hchg rfl
    | execInvoking w =>
      exfalso
      simp only [stepF, ha, if_true, hth] at hchg
      exact hchg rfl
    | execSealing w =>
      exfalso
      simp only [stepF, ha, if_true, hth] at hchg
      exact hchg rfl
  next t =>
    exfalso
    cases hth : s.thr t <;> simp only [stepF, ha, if_true, hth] at hchg <;>
      exact hchg rfl
  next t =>
    exfalso
    cases hth : s.thr t <;> simp only [stepF, ha, if_true, hth] at hchg <;>
      exact hchg rfl
  next t =>
    cases hth : s.thr t with
    | execSealing w =>
      obtain ⟨hhead, hswf⟩ := hI.busyCfg t w (Or.inr hth)
      cases hfw : s.next w with
      | null =>
        simp only [stepF, ha, if_true, hth, hfw] at hchg ⊢
        by_cases hxw : x = w
        · subst hxw
          rw [Function.update_same]
          exact ⟨(by intro hc; cases hc), Or.inl ⟨hfw, Or.inr rfl⟩⟩
        · rw [Function.update_noteq hxw] at hchg
          exact absurd rfl hchg
      | node y =>
        simp only [stepF, ha, if_true, hth, hfw] at hchg ⊢
        by_cases hxw : x = w
        · subst hxw
          rw [Function.update_same]
          exact ⟨(by intro hc; cases hc), Or.inr (Or.inl ⟨⟨y, hfw⟩, rfl⟩)⟩
        · rw [Function.update_noteq hxw] at hchg
          exact absurd rfl hchg
      | sealed =>
        exfalso
        simp only [stepF, ha, if_true, hth, hfw] at hchg
        exact hchg rfl
    | idle =>
      exfalso
      simp only [stepF, ha, if_true, hth] at hchg
      exact hchg rfl
    | created n =>
      exfalso
      simp only [stepF, ha, if_true, hth] at hchg
      exact hchg rfl
    | gotPrev n z =>
      exfalso
      simp only [stepF, ha, if_true, hth] at hchg
      exact hchg rfl
    | execReady w =>
      exfalso
      simp only [stepF, ha, if_true, hth] at hchg
      exact hchg rfl
    | execInvoking w =>
      exfalso
      simp only [stepF, ha, if_true, hth] at hchg
      exact hchg rfl
  next =>
    exfalso
    by_cases hg :
        ((List.range s.nthr).all fun u => decide (s.thr u = TState.idle))
          = true
    · simp only [stepF, ha, if_true, hg, if_pos] at hchg
      exact hchg rfl
    · have hg2 :
          ((List.range s.nthr).all fun u => decide (s.thr u = TState.idle))
            = false := by
        revert hg
        cases (List.range s.nthr).all fun u => decide (s.thr u = TState.idle)
        · intro _; rfl
        · intro hc; exact absurd rfl hc
      simp only [stepF, ha, if_true, hg2] at hchg
      exact hchg rfl

theorem nextField_transitions_witness :
    ((stepF (.exchNext 0) traceS2).next 0 ≠ traceS2.next 0) ∧
    (((stepF (.exchNext 0) traceS2).next 0 ≠ .null) ∧
     ((traceS2.next 0 = .null ∧
         ((∃ y, (stepF (.exchNext 0) traceS2).next 0 = .node y) ∨
          (stepF (.exchNext 0) traceS2).next 0 = .sealed)) ∨
      ((∃ y, traceS2.next 0 = .node y) ∧
         (stepF (.exchNext 0) traceS2).next 0 = .sealed) ∨
      (traceS2.next 0 = .sealed ∧
         (∃ y, (stepF (.exchNext 0) traceS2).next 0 = .node y) ∧
         (stepF (.exchNext 0) traceS2).destroyed 0 = true ∧
         traceS2.destroyed 0 = false))) :=
  ⟨by decide,
    nextField_transitions 0 traceS2 reach_traceS2 (.exchNext 0) 0 (by decide)⟩

/-- C9: in the reachable state reached by the first `Run` call's
reclaim path, the protocol has called `Work::Destroy` on the sentinel
from `ContinueWith`, and at the moment of that call the sentinel's
`next_` field held the successor pointer (node 1) installed by the very
exchange that observed `Sealed()` — not `Sealed()` itself.  The
`assert(next_.load(std::memory_order_relaxed) == Sealed())` at the top
of `Destroy` is therefore violated on this path (the shipped Makefile
compiles with `-DNDEBUG`, so the assert never fires in release builds). -/
theorem destroy_assert_violated_in_contWith :
    Reachable 0 traceS3 ∧
    traceS3.destroyLog = [⟨0, .sealed, .node 1, .prodW⟩] ∧
    NextV.node 1 ≠ NextV.sealed :=
  ⟨reach_traceS3, by decide, by decide⟩

/-! ## The Mem slab cache of `ActionChain::Run` (src/unnamed/part_002) -/

/-- `kAllocSize` from src/unnamed/part_002 line 80: every node lives in
a 64-byte slab. -/
def kAllocSize : Nat := 64

/-- Slab dataflow of one `ActionChain::Run(Mem&&, F&&)` call: the slab
the node was constructed in, the `Mem` returned to the caller, and the
sizes of the `operator new` calls performed. -/
structure RunRes where
  usedSlab : Nat
  retMem : Option Nat
  allocs : List Nat
deriving DecidableEq

/-- Functional model of `ActionChain::Run(Mem&&, F&&)`
(src/unnamed/part_002 lines 67-72).  Slabs are identified by numeric
ids.  `void* p = mem.p_ ? mem.Release() : ::operator new(kAllocSize)`
picks the node's slab and is the only allocation site; the call returns
`Mem(tail_.exchange(work)->ContinueWith(work))`, which wraps null when
the `ContinueWith` exchange observed null and the predecessor's slab
(`prevSlab`) when it observed a non-null value (`Sealed()` on every
reachable behavior, by `contWith_two_outcomes`).  `old` is the observed
value; `freshSlab` names the slab a fresh allocation would return. -/
def runMem (mem : Option Nat) (freshSlab prevSlab : Nat) (old : NextV) :
    RunRes :=
  let used := match mem with
    | some sl => sl
    | none => freshSlab
  let allocs : List Nat := match mem with
    | some _ => []
    | none => [kAllocSize]
  let ret : Option Nat := match old with
    | .null => none
    | _ => some prevSlab
  ⟨used, ret, allocs⟩

/-- C7: `Run(mem, action)` consumes the slab held by `mem` when `mem` is
non-empty (no allocation) and performs one allocation of
`kAllocSize = 64` bytes when `mem` is empty; when the producer observes
a SEALED predecessor, the predecessor's slab comes back in the returned
`Mem`; consequently two consecutive `Run` calls whose first observes a
SEALED predecessor perform no allocator traffic at all. -/
theorem run_mem_slab_reuse (s1 f p f2 p2 : Nat) (old2 : NextV)
    (m : Option Nat) (hm : m = some s1) :
    kAllocSize = 64 ∧
    (runMem m f p .sealed).usedSlab = s1 ∧
    (runMem m f p .sealed).allocs = [] ∧
    (∀ f3 p3 old3, (runMem none f3 p3 old3).usedSlab = f3 ∧
      (runMem none f3 p3 old3).allocs = [kAllocSize]) ∧
    (∀ m3 f3 p3, (runMem m3 f3 p3 .sealed).retMem = some p3) ∧
    (runMem (runMem m f p .sealed).retMem f2 p2 old2).allocs = [] := by
  subst hm
  exact ⟨rfl, rfl, rfl, fun f3 p3 old3 => ⟨rfl, rfl⟩,
    fun m3 f3 p3 => by cases m3 <;> rfl, rfl⟩

theorem run_mem_slab_reuse_witness :
    ((some 5 : Option Nat) = some 5) ∧
    (kAllocSize = 64 ∧
     (runMem (some 5) 6 7 .sealed).usedSlab = 5 ∧
     (runMem (some 5) 6 7 .sealed).allocs = [] ∧
     (∀ f3 p3 old3, (runMem none f3 p3 old3).usedSlab = f3 ∧
       (runMem none f3 p3 old3).allocs = [kAllocSize]) ∧
     (∀ m3 f3 p3, (runMem m3 f3 p3 .sealed).retMem = some p3) ∧
     (runMem (runMem (some 5) 6 7 .sealed).retMem 8 9 .null).allocs = []) :=
  ⟨rfl, run_mem_slab_reuse 5 6 7 8 9 .null (some 5) rfl⟩

/-- Modelled from the spec: the header revision in which the `Run`
overload without a `Mem` argument uses the process-wide, per-thread
cache `thread_local ActionChain::Mem ActionChain::mem_` (the definition
of `mem_` is src/src/action_chain.cc line 5, and the benchmark driver
describes this overload as "implicit Mem passing via TLS") is not under
src/.  Per the spec, that overload runs
`Run(std::move(mem_), action)` and the returned `Mem` is stored back
into `mem_`.  `runTLSseq` executes a sequence of such calls by one
thread, threading `mem_` through `runMem`; each call's `ContinueWith`
exchange observes `Sealed()` (the steady state of a single-threaded
caller, where every predecessor is already drained), and the number of
allocations performed is accumulated. -/
def runTLSseq (tls : Option Nat) : List (Nat × Nat) → Option Nat × Nat
  | [] => (tls, 0)
  | c :: rest =>
    let r := runMem tls c.1 c.2 .sealed
    let q := runTLSseq r.retMem rest
    (q.1, r.allocs.length + q.2)

theorem runTLSseq_some_allocs (ps : List (Nat × Nat)) :
    ∀ sl, (runTLSseq (some sl) ps).2 = 0 := by
  induction ps with
  | nil => intro sl; rfl
  | cons c rest ih =>
    intro sl
    simpa [runTLSseq, runMem] using ih c.2

/-- C8: with the per-thread `Mem` cache behind the no-argument `Run`
overload, repeated calls from one thread recycle the slab instead of
allocating and freeing on every call: a sequence of calls starting with
a full cache performs zero allocations, and starting with an empty
cache it performs at most one (the first call's), after which the slab
reclaimed from each SEALED predecessor is reused. -/
theorem run_tls_recycles (ps : List (Nat × Nat)) :
    (∀ sl, (runTLSseq (some sl) ps).2 = 0) ∧
    (runTLSseq none ps).2 ≤ 1 := by
  refine ⟨runTLSseq_some_allocs ps, ?_⟩
  cases ps with
  | nil => exact Nat.zero_le 1
  | cons c rest =>
    have h0 := runTLSseq_some_allocs rest c.2
    simp [runTLSseq, runMem, h0, kAllocSize]

/-! ## Sized deallocation in the `src/src/action_chain.h` revision -/

/-- `sizeof(Work)` on LP64 for src/src/action_chain.h: an
`std::atomic<Work*>` plus a function pointer `void (*)(Work*)`. -/
def workSize : Nat := 16

/-- `alignof(Work)` on LP64. -/
def workAlign : Nat := 8

/-- `sizeof(std::size_t)` on LP64. -/
def sizeTSize : Nat := 8

/-- `alignof(std::size_t)` on LP64. -/
def sizeTAlign : Nat := 8

/-- Align `n` up to alignment `a`: the value of the C expression
`n + (-n & (a - 1))` in `Trailer` (src/src/action_chain.h lines 87-91)
for power-of-two `a`. -/
def alignUp (n a : Nat) : Nat := n + (a - n % a) % a

/-- `AllocSize<F>()` (src/src/action_chain.h lines 93-99):
`S = max(sizeof(F), sizeof(size_t))`,
`A = max(alignof(F), alignof(size_t))`,
`P = A > alignof(Work) ? A - alignof(Work) : 0`, result
`sizeof(Work) + P + S`. -/
def allocSizeV1 (sizeF alignF : Nat) : Nat :=
  workSize +
    (if workAlign < max alignF sizeTAlign
      then max alignF sizeTAlign - workAlign else 0) +
    max sizeF sizeTSize

/-- Address of `Trailer<T>()` for a node allocated at address `p`. -/
def trailerAddr (p alignT : Nat) : Nat := alignUp (p + workSize) alignT

/-- The slab of one node in the sized-deallocation revision: the number
of bytes passed to `operator new`, and the contents of the `size_t`
trailer cell (none while uninitialized). -/
structure SlabV1 where
  cap : Nat
  trailerVal : Option Nat
deriving DecidableEq

/-- `Work::New<F>` (src/src/action_chain.h lines 41-50):
`::operator new(AllocSize<F>())`; the trailer cell holds the action, the
`size_t` view of it is not yet written. -/
def newV1 (sizeF alignF : Nat) : SlabV1 := ⟨allocSizeV1 sizeF alignF, none⟩

/-- `Invoke<F>` (src/src/action_chain.h lines 101-108): runs the action,
destroys it, then writes `*w->Trailer<size_t>() = AllocSize<F>()`. -/
def invokeV1 (sizeF alignF : Nat) (sl : SlabV1) : SlabV1 :=
  { sl with trailerVal := some (allocSizeV1 sizeF alignF) }

/-- `Work::Destroy` (src/src/action_chain.h lines 52-58): reads
`size_t size = *Trailer<size_t>()` and passes it to
`::operator delete(this, size)`. -/
def destroyV1 (sl : SlabV1) : Option Nat := sl.trailerVal

/-- C10: in the sized-deallocation revision, the byte count passed to
`operator delete` in `Destroy` equals the byte count passed to
`operator new` in `New` for the same node: `Invoke<F>` stores
`AllocSize<F>()` in the `size_t` trailer after destroying the action
and runs before `Destroy`, and under the alignment guarantee asserted
by `New` (`p` is `alignof(Work)`-aligned) the `size_t` trailer starts
right after the `Work` header and `AllocSize<F>()` reserves at least
`sizeof(size_t)` bytes for it, so the stored size lies inside the
allocation and is intact when `Destroy` reads it. -/
theorem sized_delete_matches_new (sizeF alignF p : Nat)
    (hp : workAlign ∣ p) :
    destroyV1 (invokeV1 sizeF alignF (newV1 sizeF alignF)) =
      some (newV1 sizeF alignF).cap ∧
    trailerAddr p sizeTAlign = p + workSize ∧
    trailerAddr p sizeTAlign + sizeTSize ≤ p + allocSizeV1 sizeF alignF := by
  have hp8 : (8 : Nat) ∣ p := hp
  refine ⟨rfl, ?_, ?_⟩
  · simp only [trailerAddr, alignUp, sizeTAlign, workSize]
    omega
  · have h8 : 8 ≤ max sizeF 8 := le_max_right _ _
    simp only [trailerAddr, alignUp, allocSizeV1, sizeTAlign, sizeTSize,
      workSize, workAlign]
    omega

theorem sized_delete_matches_new_witness :
    workAlign ∣ 64 ∧
    (destroyV1 (invokeV1 24 8 (newV1 24 8)) = some (newV1 24 8).cap ∧
     trailerAddr 64 sizeTAlign = 64 + workSize ∧
     trailerAddr 64 sizeTAlign + sizeTSize ≤ 64 + allocSizeV1 24 8) :=
  ⟨by decide, sized_delete_matches_new 24 8 64 (by decide)⟩

end ActionChain
